import Mathlib

/-!
Verification of the incremental analysis cache core of polymer-analyzer.

The development shallowly embeds:
* an association-list model of the JavaScript Map (`mfind`, `mset`, `mdelete`),
* the memoizing asynchronous work cache (AsyncWorkCache) and a trace
  semantics of its operations,
* the persistent dependency graph with its reverse-reachability query,
* the AnalysisCache orchestrator and its `invalidate` algorithm, translated
  from src/core/analysis-cache.ts,
* a heap-and-reference model used to state that `invalidate` never mutates
  its receiver.

Payload types (parsed, scanned, analyzed documents) are opaque type
parameters P, S, D throughout.
-/

/-- A JavaScript Map modelled as an association list kept in insertion
order; keys of a real Map are unique, which the development tracks with
`keysNodup` where it matters. -/
abbrev KVMap (K V : Type) : Type := List (K × V)

/-- Lookup of the first entry with the given key (Map.get). -/
def mfind {K V : Type} [DecidableEq K] : KVMap K V → K → Option V
  | [], _ => none
  | (k', v) :: rest, k => if k' = k then some v else mfind rest k

/-- Map.delete: remove every entry with the given key. -/
def mdelete {K V : Type} [DecidableEq K] (l : KVMap K V) (k : K) : KVMap K V :=
  l.filter (fun e => e.1 ≠ k)

/-- Map.set: replace the first entry with the given key in place, or append
a fresh entry at the end (JavaScript Maps keep insertion order). -/
def mset {K V : Type} [DecidableEq K] : KVMap K V → K → V → KVMap K V
  | [], k, v => [(k, v)]
  | (k', v') :: rest, k, v =>
      if k' = k then (k, v) :: rest else (k', v') :: mset rest k v

/-- The keys of the association list are pairwise distinct (every real
JavaScript Map satisfies this). -/
abbrev keysNodup {K V : Type} (l : KVMap K V) : Prop :=
  (l.map Prod.fst).Nodup

theorem mfind_mdelete {K V : Type} [DecidableEq K] (l : KVMap K V) (k k' : K) :
    mfind (mdelete l k) k' = if k' = k then none else mfind l k' := by
  induction l with
  | nil => simp [mdelete, mfind]
  | cons e rest ih =>
    obtain ⟨ke, ve⟩ := e
    by_cases h1 : ke = k
    · have hd : mdelete ((ke, ve) :: rest) k = mdelete rest k := by
        simp [mdelete, h1]
      rw [hd, ih]
      by_cases h2 : k' = k
      · simp [h2]
      · have h3 : ¬ ke = k' := by rw [h1]; exact fun hh => h2 hh.symm
        simp [mfind, h3, h2]
    · have hd : mdelete ((ke, ve) :: rest) k = (ke, ve) :: mdelete rest k := by
        simp [mdelete, h1]
      rw [hd]
      by_cases h3 : ke = k'
      · subst h3
        simp [mfind, h1]
      · simp [mfind, h3, ih]

theorem mfind_mset {K V : Type} [DecidableEq K] (l : KVMap K V) (k k' : K) (v : V) :
    mfind (mset l k v) k' = if k' = k then some v else mfind l k' := by
  induction l with
  | nil =>
    by_cases h : k' = k
    · simp [mset, mfind, h]
    · have h2 : ¬ k = k' := fun hh => h hh.symm
      simp [mset, mfind, h, h2]
  | cons e rest ih =>
    obtain ⟨ke, ve⟩ := e
    by_cases h1 : ke = k
    · have hd : mset ((ke, ve) :: rest) k v = (k, v) :: rest := by
        simp [mset, h1]
      rw [hd]
      by_cases h2 : k' = k
      · simp [mfind, h2]
      · have h3 : ¬ k = k' := fun hh => h2 hh.symm
        have h4 : ¬ ke = k' := by rw [h1]; exact h3
        simp [mfind, h3, h4, h2]
    · have hd : mset ((ke, ve) :: rest) k v = (ke, ve) :: mset rest k v := by
        simp [mset, h1]
      rw [hd]
      by_cases h3 : ke = k'
      · subst h3
        simp [mfind, h1]
      · simp [mfind, h3, ih]

theorem mfind_eq_none_iff {K V : Type} [DecidableEq K] (l : KVMap K V) (k : K) :
    mfind l k = none ↔ k ∉ l.map Prod.fst := by
  induction l with
  | nil => simp [mfind]
  | cons e rest ih =>
    obtain ⟨ke, ve⟩ := e
    by_cases h : ke = k
    · subst h; simp [mfind]
    · simp [mfind, h, ih, Ne.symm h]

theorem mfind_append_left {K V : Type} [DecidableEq K]
    (l₁ l₂ : KVMap K V) (k : K) (v : V) (h : mfind l₁ k = some v) :
    mfind (l₁ ++ l₂) k = some v := by
  induction l₁ with
  | nil => simp [mfind] at h
  | cons e rest ih =>
    obtain ⟨ke, ve⟩ := e
    by_cases he : ke = k
    · subst he; simp [mfind] at h ⊢; exact h
    · simp [mfind, he] at h ⊢; exact ih h

theorem mfind_append_right {K V : Type} [DecidableEq K]
    (l₁ l₂ : KVMap K V) (k : K) (h : mfind l₁ k = none) :
    mfind (l₁ ++ l₂) k = mfind l₂ k := by
  induction l₁ with
  | nil => simp
  | cons e rest ih =>
    obtain ⟨ke, ve⟩ := e
    by_cases he : ke = k
    · subst he; simp [mfind] at h
    · simp [mfind, he] at h ⊢; exact ih h

theorem mset_eq_append {K V : Type} [DecidableEq K]
    (l : KVMap K V) (k : K) (v : V) (h : mfind l k = none) :
    mset l k v = l ++ [(k, v)] := by
  induction l with
  | nil => simp [mset]
  | cons e rest ih =>
    obtain ⟨ke, ve⟩ := e
    by_cases he : ke = k
    · subst he; simp [mfind] at h
    · simp [mfind, he] at h
      simp [mset, he, ih h]

theorem keysNodup_mdelete {K V : Type} [DecidableEq K] (l : KVMap K V) (k : K)
    (h : keysNodup l) : keysNodup (mdelete l k) :=
  ((List.filter_sublist l).map Prod.fst).nodup h

theorem mfind_mem {K V : Type} [DecidableEq K]
    (l : KVMap K V) (kv : K × V) (h : kv ∈ l) (hnd : keysNodup l) :
    mfind l kv.1 = some kv.2 := by
  induction l with
  | nil => cases h
  | cons e rest ih =>
    obtain ⟨ke, ve⟩ := e
    rcases List.mem_cons.mp h with h1 | h1
    · subst h1; simp [mfind]
    · have hk : ¬ ke = kv.1 := by
        intro he
        have hm : kv.1 ∈ rest.map Prod.fst := List.mem_map_of_mem Prod.fst h1
        rw [← he] at hm
        exact (List.nodup_cons.mp hnd).1 hm
      simp only [mfind, hk, if_false]
      exact ih h1 (List.nodup_cons.mp hnd).2

theorem mem_of_mem_mdelete {K V : Type} [DecidableEq K]
    (l : KVMap K V) (k : K) (kv : K × V) (h : kv ∈ mdelete l k) : kv ∈ l :=
  List.mem_of_mem_filter h

theorem mfind_map_value {K V W : Type} [DecidableEq K]
    (l : KVMap K V) (f : V → W) (k : K) :
    mfind (l.map (fun kv => (kv.1, f kv.2))) k = (mfind l k).map f := by
  induction l with
  | nil => simp [mfind]
  | cons e rest ih =>
    obtain ⟨ke, ve⟩ := e
    by_cases he : ke = k <;> simp [mfind, he, ih]

/-- The eventual content of one JavaScript Promise slot of a work cache:
still pending (identified by a computation id), resolved with a value, or
rejected with an (opaque) error. -/
inductive Entry (V : Type) where
  | pending (cid : Nat)
  | resolved (v : V)
  | failed (err : Nat)
deriving DecidableEq

/-- Modelled from the spec (section 4.1): the Memoizing Work Cache
AsyncWorkCache of async-work-cache.ts, whose source is not in the visible
tree, is a Map from keys to promises. -/
abbrev AsyncWorkCache (K V : Type) : Type := KVMap K (Entry V)

/-- Modelled from the spec: `getOrCompute` returns an existing entry
without invoking the computation; otherwise it synchronously registers a
new in-flight entry backed by the supplied computation (identified by
`cid`) and returns it.  The third component records whether the
computation was invoked. -/
def awcGetOrCompute {K V : Type} [DecidableEq K]
    (c : AsyncWorkCache K V) (k : K) (cid : Nat) :
    Entry V × AsyncWorkCache K V × Bool :=
  match mfind c k with
  | some e => (e, c, false)
  | none => (Entry.pending cid, mset c k (Entry.pending cid), true)

/-- Modelled from the spec: `set` unconditionally installs a resolved
entry. -/
def awcSet {K V : Type} [DecidableEq K]
    (c : AsyncWorkCache K V) (k : K) (v : V) : AsyncWorkCache K V :=
  mset c k (Entry.resolved v)

/-- Modelled from the spec: `delete` removes the entry for the key. -/
def awcDelete {K V : Type} [DecidableEq K]
    (c : AsyncWorkCache K V) (k : K) : AsyncWorkCache K V :=
  mdelete c k

/-- Modelled from the spec: `clear` removes all entries. -/
def awcClear {K V : Type} : AsyncWorkCache K V := []

/-- Modelled from the spec: the scheduler settles the in-flight
computation `cid`, resolving or rejecting every entry backed by it; a
settled entry never changes again. -/
def settleEntry {V : Type} (cid : Nat) (r : Except Nat V) : Entry V → Entry V
  | Entry.pending cid' =>
      if cid' = cid then
        match r with
        | Except.ok v => Entry.resolved v
        | Except.error n => Entry.failed n
      else Entry.pending cid'
  | e => e

def awcSettle {K V : Type} (c : AsyncWorkCache K V) (cid : Nat)
    (r : Except Nat V) : AsyncWorkCache K V :=
  c.map (fun e => (e.1, settleEntry cid r e.2))

instance exceptDecidableEq {E V : Type} [DecidableEq E] [DecidableEq V] :
    DecidableEq (Except E V) := fun a b =>
  match a, b with
  | Except.ok v, Except.ok w =>
      if h : v = w then isTrue (by rw [h]) else isFalse (by intro hh; cases hh; exact h rfl)
  | Except.error e, Except.error f =>
      if h : e = f then isTrue (by rw [h]) else isFalse (by intro hh; cases hh; exact h rfl)
  | Except.ok _, Except.error _ => isFalse (by intro hh; cases hh)
  | Except.error _, Except.ok _ => isFalse (by intro hh; cases hh)

/-- One operation of a client or of the scheduler against a work cache.
A `getOrCompute` carries the identity of the compute closure it would
start. -/
inductive WOp (K V : Type) where
  | getOrCompute (k : K) (cid : Nat)
  | set (k : K) (v : V)
  | delete (k : K)
  | clear
  | settle (cid : Nat) (r : Except Nat V)
deriving DecidableEq

/-- Execute one operation; the log records each invocation of a compute
closure as (key, computation id). -/
def stepOp {K V : Type} [DecidableEq K]
    (c : AsyncWorkCache K V) : WOp K V → AsyncWorkCache K V × List (K × Nat)
  | WOp.getOrCompute k cid =>
      match awcGetOrCompute c k cid with
      | (_, c', invoked) => (c', if invoked then [(k, cid)] else [])
  | WOp.set k v => (awcSet c k v, [])
  | WOp.delete k => (awcDelete c k, [])
  | WOp.clear => (awcClear, [])
  | WOp.settle cid r => (awcSettle c cid r, [])

/-- Execute a sequence of operations, accumulating the invocation log. -/
def runOps {K V : Type} [DecidableEq K]
    (c : AsyncWorkCache K V) : List (WOp K V) → AsyncWorkCache K V × List (K × Nat)
  | [] => (c, [])
  | op :: rest =>
      let s := stepOp c op
      let t := runOps s.1 rest
      (t.1, s.2 ++ t.2)

/-- Number of compute invocations recorded for a key. -/
def invocations {K : Type} [DecidableEq K] (k : K) (log : List (K × Nat)) : Nat :=
  (log.filter (fun e => e.1 = k)).length

/-- The operation sequence never evicts the key: it contains no delete of
that key and no clear. -/
abbrev NoEvict {K V : Type} (k : K) (ops : List (WOp K V)) : Prop :=
  ∀ op ∈ ops, op ≠ WOp.delete k ∧ op ≠ WOp.clear

/-- The operation evicts or overwrites the key: it is a delete of the key,
a clear, or a set of the key. -/
def touches {K V : Type} [DecidableEq K] (k : K) : WOp K V → Bool
  | WOp.delete k' => k' = k
  | WOp.clear => true
  | WOp.set k' _ => k' = k
  | _ => false

/-- The operation sequence touches the key only through getOrCompute and
scheduler settlement: no delete of the key, no clear, no set of the key
(the spec names explicit deletion as the only way to clear a poisoned
key; `set` is the separate seeding primitive). -/
abbrev NoTouch {K V : Type} [DecidableEq K] (k : K) (ops : List (WOp K V)) : Prop :=
  ∀ op ∈ ops, touches k op = false

theorem not_touches_spec {K V : Type} [DecidableEq K] (k : K) (op : WOp K V)
    (h : touches k op = false) :
    op ≠ WOp.delete k ∧ op ≠ WOp.clear ∧ ∀ v, op ≠ WOp.set k v := by
  cases op with
  | getOrCompute k' cid => exact ⟨by simp, by simp, fun v => by simp⟩
  | set k' v =>
    simp [touches] at h
    exact ⟨by simp, by simp, fun w => by simp [h]⟩
  | delete k' =>
    simp [touches] at h
    exact ⟨by simp [h], by simp, fun v => by simp⟩
  | clear => simp [touches] at h
  | settle cid r => exact ⟨by simp, by simp, fun v => by simp⟩

theorem mfind_awcSettle {K V : Type} [DecidableEq K]
    (c : AsyncWorkCache K V) (cid : Nat) (r : Except Nat V) (k : K) :
    mfind (awcSettle c cid r) k = (mfind c k).map (settleEntry cid r) :=
  mfind_map_value c (settleEntry cid r) k

/-- A step that is not an eviction of k preserves presence of k. -/
theorem stepOp_preserves_present {K V : Type} [DecidableEq K]
    (c : AsyncWorkCache K V) (op : WOp K V) (k : K)
    (hop : op ≠ WOp.delete k ∧ op ≠ WOp.clear)
    (h : mfind c k ≠ none) : mfind (stepOp c op).1 k ≠ none := by
  cases op with
  | getOrCompute k' cid =>
    by_cases hk : k' = k
    · subst hk
      rcases ho : mfind c k' with _ | e
      · exact absurd ho h
      · simp [stepOp, awcGetOrCompute, ho]
    · rcases ho : mfind c k' with _ | e
      · simp [stepOp, awcGetOrCompute, ho, mfind_mset]
        intro hek
        rw [if_neg (fun hh => hk hh.symm)] at hek
        exact h hek
      · simp [stepOp, awcGetOrCompute, ho]
        exact h
  | set k' v =>
    simp only [stepOp, awcSet]
    rw [mfind_mset]
    by_cases hk : k = k' <;> simp [hk]
    exact h
  | delete k' =>
    have hk : k' ≠ k := by
      intro hh; exact hop.1 (by rw [hh])
    simp only [stepOp, awcDelete]
    rw [mfind_mdelete]
    rw [if_neg (fun hh => hk hh.symm)]
    exact h
  | clear => exact absurd rfl hop.2
  | settle cid r =>
    simp only [stepOp]
    rw [mfind_awcSettle]
    rcases ho : mfind c k with _ | e
    · exact absurd ho h
    · simp

/-- A step invokes a computation for k only when k is absent, and then k
becomes present. -/
theorem stepOp_log_for_key {K V : Type} [DecidableEq K]
    (c : AsyncWorkCache K V) (op : WOp K V) (k : K)
    (h : mfind c k ≠ none) : invocations k (stepOp c op).2 = 0 := by
  cases op with
  | getOrCompute k' cid =>
    rcases ho : mfind c k' with _ | e
    · by_cases hk : k' = k
      · subst hk; exact absurd ho h
      · simp [stepOp, awcGetOrCompute, ho, invocations, hk]
    · simp [stepOp, awcGetOrCompute, ho, invocations]
  | set k' v => simp [stepOp, invocations]
  | delete k' => simp [stepOp, invocations]
  | clear => simp [stepOp, invocations]
  | settle cid r => simp [stepOp, invocations]

/-- Once k is present it stays present and no further computation for k is
ever invoked, along a NoEvict trace. -/
theorem runOps_no_invocation_of_present {K V : Type} [DecidableEq K]
    (ops : List (WOp K V)) (c : AsyncWorkCache K V) (k : K)
    (hops : NoEvict k ops) (h : mfind c k ≠ none) :
    invocations k (runOps c ops).2 = 0 := by
  induction ops generalizing c with
  | nil => simp [runOps, invocations]
  | cons op rest ih =>
    have hop := hops op (List.mem_cons_self op rest)
    have hrest : NoEvict k rest := fun o ho => hops o (List.mem_cons_of_mem op ho)
    have h1 := stepOp_log_for_key c op k h
    have h2 := stepOp_preserves_present c op k hop h
    simp only [runOps, invocations, List.filter_append, List.length_append]
    have := ih (stepOp c op).1 hrest h2
    simp only [invocations] at h1 this
    omega

theorem invocations_runOps_le_one {K V : Type} [DecidableEq K]
    (ops : List (WOp K V)) (c : AsyncWorkCache K V) (k : K)
    (hops : NoEvict k ops) :
    invocations k (runOps c ops).2 ≤ 1 := by
  induction ops generalizing c with
  | nil => simp [runOps, invocations]
  | cons op rest ih =>
    have hop := hops op (List.mem_cons_self op rest)
    have hrest : NoEvict k rest := fun o ho => hops o (List.mem_cons_of_mem op ho)
    simp only [runOps, invocations, List.filter_append, List.length_append]
    rcases hpres : mfind c k with _ | e
    · -- k absent before this step
      cases op with
      | getOrCompute k' cid =>
        by_cases hk : k' = k
        · -- this step invokes for k (k absent) and makes k present
          have hlog : invocations k (stepOp c (WOp.getOrCompute k' cid)).2 = 1 := by
            simp [stepOp, awcGetOrCompute, hpres, invocations, hk]
          have hpres2 : mfind (stepOp c (WOp.getOrCompute k' cid)).1 k ≠ none := by
            simp [stepOp, awcGetOrCompute, hpres, mfind_mset, hk]
          have hrec := runOps_no_invocation_of_present rest _ k hrest hpres2
          simp only [invocations] at hlog hrec ⊢
          omega
        · have hlog : invocations k (stepOp c (WOp.getOrCompute k' cid)).2 = 0 := by
            rcases ho : mfind c k' with _ | e <;>
              simp [stepOp, awcGetOrCompute, ho, invocations, hk]
          have hrec := ih (stepOp c (WOp.getOrCompute k' cid)).1 hrest
          simp only [invocations] at hlog hrec ⊢
          omega
      | set k' v =>
        have hrec := ih (stepOp c (WOp.set k' v)).1 hrest
        simp only [invocations, stepOp] at hrec ⊢
        simpa using hrec
      | delete k' =>
        have hrec := ih (stepOp c (WOp.delete k')).1 hrest
        simp only [invocations, stepOp] at hrec ⊢
        simpa using hrec
      | clear =>
        have hrec := ih (stepOp c WOp.clear).1 hrest
        simp only [invocations, stepOp] at hrec ⊢
        simpa using hrec
      | settle cid r =>
        have hrec := ih (stepOp c (WOp.settle cid r)).1 hrest
        simp only [invocations, stepOp] at hrec ⊢
        simpa using hrec
    · -- k present: nothing is ever invoked again
      have h1 := stepOp_log_for_key c op k (by rw [hpres]; exact fun h => by cases h)
      have h2 := stepOp_preserves_present c op k hop (by rw [hpres]; exact fun h => by cases h)
      have := runOps_no_invocation_of_present rest _ k hrest h2
      simp only [invocations] at h1 this ⊢
      omega

/-- C6: for every key of a Memoizing Work Cache, over any operation
sequence from the empty cache that contains no delete of that key and no
clear, the compute closure for that key is invoked at most once; moreover,
whenever an entry for a key exists, getOrCompute returns exactly that
entry, does not change the cache and invokes nothing. -/
theorem c6_getOrCompute_at_most_once {K V : Type} [DecidableEq K]
    (ops : List (WOp K V)) (k : K) (hops : NoEvict k ops) :
    invocations k (runOps (awcClear : AsyncWorkCache K V) ops).2 ≤ 1 ∧
    (∀ (c : AsyncWorkCache K V) (e : Entry V) (cid : Nat),
      mfind c k = some e → awcGetOrCompute c k cid = (e, c, false)) := by
  refine ⟨invocations_runOps_le_one ops awcClear k hops, ?_⟩
  intro c e cid h
  simp [awcGetOrCompute, h]

/-- Witness for C6 on a concrete trace: two back-to-back getOrCompute
requests for the same key (issued before the first settles), then a
settlement, then a third request, invoke the computation exactly once. -/
theorem c6_getOrCompute_at_most_once_witness :
    invocations "k"
      (runOps (awcClear : AsyncWorkCache String Nat)
        [WOp.getOrCompute "k" 0, WOp.getOrCompute "k" 1,
         WOp.settle 0 (Except.ok 5), WOp.getOrCompute "k" 2]).2 ≤ 1 :=
  (c6_getOrCompute_at_most_once
    [WOp.getOrCompute "k" 0, WOp.getOrCompute "k" 1,
     WOp.settle 0 (Except.ok 5), WOp.getOrCompute "k" 2] "k"
    (by decide)).1

/-- A step that neither evicts k nor sets k preserves a failed entry at k. -/
theorem stepOp_preserves_failed {K V : Type} [DecidableEq K]
    (c : AsyncWorkCache K V) (op : WOp K V) (k : K) (err : Nat)
    (hop : op ≠ WOp.delete k ∧ op ≠ WOp.clear ∧ ∀ v, op ≠ WOp.set k v)
    (h : mfind c k = some (Entry.failed err)) :
    mfind (stepOp c op).1 k = some (Entry.failed err) := by
  cases op with
  | getOrCompute k' cid =>
    by_cases hk : k' = k
    · subst hk
      simp [stepOp, awcGetOrCompute, h]
    · rcases ho : mfind c k' with _ | e
      · simp [stepOp, awcGetOrCompute, ho, mfind_mset]
        rw [if_neg (fun hh => hk hh.symm)]
        exact h
      · simpa [stepOp, awcGetOrCompute, ho] using h
  | set k' v =>
    have hk : k' ≠ k := fun hh => (hop.2.2 v) (by rw [hh])
    simp only [stepOp, awcSet]
    rw [mfind_mset, if_neg (fun hh => hk hh.symm)]
    exact h
  | delete k' =>
    have hk : k' ≠ k := fun hh => hop.1 (by rw [hh])
    simp only [stepOp, awcDelete]
    rw [mfind_mdelete, if_neg (fun hh => hk hh.symm)]
    exact h
  | clear => exact absurd rfl hop.2.1
  | settle cid r =>
    simp only [stepOp]
    rw [mfind_awcSettle, h]
    simp [settleEntry]

/-- A failed entry survives any NoTouch operation sequence. -/
theorem runOps_preserves_failed {K V : Type} [DecidableEq K]
    (ops : List (WOp K V)) (c : AsyncWorkCache K V) (k : K) (err : Nat)
    (hops : NoTouch k ops) (h : mfind c k = some (Entry.failed err)) :
    mfind (runOps c ops).1 k = some (Entry.failed err) := by
  induction ops generalizing c with
  | nil => simpa [runOps] using h
  | cons op rest ih =>
    have hop := not_touches_spec k op (hops op (List.mem_cons_self op rest))
    have hrest : NoTouch k rest := fun o ho => hops o (List.mem_cons_of_mem op ho)
    exact ih (stepOp c op).1 hrest (stepOp_preserves_failed c op k err hop h)

/-- C7: a failed computation is cached like a success.  If the cache holds
a failure for k, then along any operation sequence that does not delete k,
clear the cache or explicitly seed k via set, the failure persists, every
getOrCompute for k returns exactly the original failure and no compute
closure for k is ever invoked; deleting k removes the entry, after which
the next getOrCompute for k starts a fresh computation. -/
theorem c7_failure_stickiness {K V : Type} [DecidableEq K]
    (c : AsyncWorkCache K V) (k : K) (err : Nat) (ops : List (WOp K V))
    (hf : mfind c k = some (Entry.failed err)) (hops : NoTouch k ops) :
    mfind (runOps c ops).1 k = some (Entry.failed err) ∧
    (∀ cid, awcGetOrCompute (runOps c ops).1 k cid =
      (Entry.failed err, (runOps c ops).1, false)) ∧
    invocations k (runOps c ops).2 = 0 ∧
    mfind (awcDelete c k) k = none ∧
    (∀ cid, awcGetOrCompute (awcDelete c k) k cid =
      (Entry.pending cid, mset (awcDelete c k) k (Entry.pending cid), true)) := by
  have hkeep := runOps_preserves_failed ops c k err hops hf
  have hdel : mfind (awcDelete c k) k = none := by
    simp [awcDelete, mfind_mdelete]
  refine ⟨hkeep, ?_, ?_, hdel, ?_⟩
  · intro cid
    simp [awcGetOrCompute, hkeep]
  · exact runOps_no_invocation_of_present ops c k
      (fun op ho =>
        ⟨(not_touches_spec k op (hops op ho)).1,
         (not_touches_spec k op (hops op ho)).2.1⟩)
      (by rw [hf]; exact fun hh => by cases hh)
  · intro cid
    simp [awcGetOrCompute, hdel]

/-- Witness for C7: a concrete poisoned cache, probed twice and settled in
between, keeps returning the original failure; after delete the key starts
fresh. -/
theorem c7_failure_stickiness_witness :
    mfind (runOps [("k", (Entry.failed 7 : Entry Nat))]
      [WOp.getOrCompute "k" 1, WOp.settle 1 (Except.ok 3),
       WOp.getOrCompute "k" 2]).1 "k" = some (Entry.failed 7) ∧
    awcGetOrCompute (runOps [("k", (Entry.failed 7 : Entry Nat))]
      [WOp.getOrCompute "k" 1, WOp.settle 1 (Except.ok 3),
       WOp.getOrCompute "k" 2]).1 "k" 9 =
      (Entry.failed 7, (runOps [("k", (Entry.failed 7 : Entry Nat))]
        [WOp.getOrCompute "k" 1, WOp.settle 1 (Except.ok 3),
         WOp.getOrCompute "k" 2]).1, false) ∧
    invocations "k" (runOps [("k", (Entry.failed 7 : Entry Nat))]
      [WOp.getOrCompute "k" 1, WOp.settle 1 (Except.ok 3),
       WOp.getOrCompute "k" 2]).2 = 0 ∧
    mfind (awcDelete [("k", (Entry.failed 7 : Entry Nat))] "k") "k" = none ∧
    awcGetOrCompute (awcDelete [("k", (Entry.failed 7 : Entry Nat))] "k") "k" 9 =
      (Entry.pending 9,
       mset (awcDelete [("k", (Entry.failed 7 : Entry Nat))] "k") "k" (Entry.pending 9),
       true) := by
  obtain ⟨h1, h2, h3, h4, h5⟩ :=
    c7_failure_stickiness [("k", (Entry.failed 7 : Entry Nat))] "k" 7
      [WOp.getOrCompute "k" 1, WOp.settle 1 (Except.ok 3), WOp.getOrCompute "k" 2]
      (by decide) (by decide)
  exact ⟨h1, h2 9, h3, h4, h5 9⟩

/-- Modelled from the spec (section 4.2): the persistent DependencyGraph of
dependency-graph.ts, whose source is not in the visible tree.  An edge
(a, b) records that the scan of document a declared a dependency on
document b. -/
structure DependencyGraph where
  edges : List (String × String)
deriving DecidableEq

/-- The direct dependants of a document: the sources of the edges that
target it (reverse adjacency). -/
def dependantsOf (g : DependencyGraph) (p : String) : List String :=
  (g.edges.filter (fun e => e.2 = p)).map (fun e => e.1)

/-- Every document mentioned by some edge of the graph. -/
def nodeList (g : DependencyGraph) : List String :=
  g.edges.map (fun e => e.1) ++ g.edges.map (fun e => e.2)

/-- Worklist traversal of the reverse edges.  The fuel argument makes the
recursion structural; `walkFuel` below always suffices. -/
def walkF (g : DependencyGraph) : Nat → List String → List String → List String
  | 0, _, visited => visited
  | _ + 1, [], visited => visited
  | n + 1, x :: rest, visited =>
    if x ∈ visited then walkF g n rest visited
    else walkF g n (dependantsOf g x ++ rest) (x :: visited)

/-- Enough fuel for the traversal: every productive step consumes an
unvisited node and can enlarge the frontier by at most the edge count. -/
def walkFuel (g : DependencyGraph) (visited frontier : List String) : Nat :=
  frontier.length +
    ((nodeList g).filter (fun y => y ∉ visited)).length * (g.edges.length + 1)

/-- getAllDependantsOf from dependency-graph.ts, modelled from the spec:
all documents reachable from p by reverse edges, excluding p itself. -/
def getAllDependantsOf (g : DependencyGraph) (p : String) : List String :=
  (walkF g (walkFuel g [p] (dependantsOf g p)) (dependantsOf g p) [p]).filter
    (fun y => y ≠ p)

/-- Transitive reverse reachability: a is a (transitive) dependant of root
when a chain of declared dependencies leads from a down to root. -/
inductive Reaches (g : DependencyGraph) (root : String) : String → Prop where
  | base {a : String} : (a, root) ∈ g.edges → Reaches g root a
  | step {a b : String} : Reaches g root b → (a, b) ∈ g.edges → Reaches g root a

theorem mem_dependantsOf (g : DependencyGraph) (p a : String) :
    a ∈ dependantsOf g p ↔ (a, p) ∈ g.edges := by
  constructor
  · intro h
    rcases List.mem_map.mp h with ⟨e, he, hea⟩
    have h2 := List.mem_filter.mp he
    have h3 : e.2 = p := by simpa using h2.2
    have : e = (a, p) := by
      obtain ⟨e1, e2⟩ := e
      simp at hea h3
      rw [hea, h3]
    rw [← this]
    exact h2.1
  · intro h
    apply List.mem_map.mpr
    exact ⟨(a, p), List.mem_filter.mpr ⟨h, by simp⟩, rfl⟩

theorem dependantsOf_subset_nodeList (g : DependencyGraph) (p a : String)
    (h : a ∈ dependantsOf g p) : a ∈ nodeList g := by
  rcases List.mem_map.mp h with ⟨e, he, hea⟩
  apply List.mem_append_left
  exact hea ▸ List.mem_map_of_mem (fun e => e.1) (List.mem_of_mem_filter he)

theorem dependantsOf_length_le (g : DependencyGraph) (p : String) :
    (dependantsOf g p).length ≤ g.edges.length := by
  calc (dependantsOf g p).length
      = (g.edges.filter (fun e => e.2 = p)).length := List.length_map _ _
    _ ≤ g.edges.length := (List.filter_sublist g.edges).length_le

theorem dependantsOf_eq_nil_of_not_mem_nodeList (g : DependencyGraph)
    (x : String) (hx : x ∉ nodeList g) : dependantsOf g x = [] := by
  rcases h : dependantsOf g x with _ | ⟨a, rest⟩
  · rfl
  · exfalso
    have ha : a ∈ dependantsOf g x := by rw [h]; exact List.mem_cons_self a rest
    have : (a, x) ∈ g.edges := (mem_dependantsOf g x a).mp ha
    exact hx (List.mem_append_right _ (List.mem_map_of_mem (fun e => e.2) this))

theorem filter_visited_cons_length_lt (l visited : List String) (x : String)
    (hxl : x ∈ l) (hxv : x ∉ visited) :
    (l.filter (fun y => y ∉ x :: visited)).length <
      (l.filter (fun y => y ∉ visited)).length := by
  have hsub : List.Sublist (l.filter (fun y => y ∉ x :: visited))
      (l.filter (fun y => y ∉ visited)) := by
    apply List.monotone_filter_right
    intro a ha
    simp only [decide_eq_true_eq] at ha ⊢
    exact fun hv => ha (List.mem_cons_of_mem x hv)
  have hne : l.filter (fun y => y ∉ x :: visited) ≠ l.filter (fun y => y ∉ visited) := by
    intro he
    have hx1 : x ∈ l.filter (fun y => y ∉ visited) :=
      List.mem_filter.mpr ⟨hxl, by simpa using hxv⟩
    rw [← he] at hx1
    have := (List.mem_filter.mp hx1).2
    simp at this
  exact Nat.lt_of_le_of_ne hsub.length_le
    (fun he => hne (hsub.eq_of_length he))

theorem filter_visited_cons_eq (l visited : List String) (x : String)
    (hxl : x ∉ l) :
    l.filter (fun y => y ∉ x :: visited) = l.filter (fun y => y ∉ visited) := by
  apply List.filter_congr
  intro a ha
  have hax : a ≠ x := fun he => hxl (he ▸ ha)
  simp [List.mem_cons, hax]

/-- Master invariant of the worklist traversal: with sufficient fuel and
sound inputs, the result is duplicate-free, contains the visited set and
the frontier, is closed under reverse edges, and is contained in any
predicate Q closed under reverse-edge steps that holds on the inputs. -/
theorem walkF_spec (g : DependencyGraph) (Q : String → Prop)
    (HQ : ∀ x a, Q x → a ∈ dependantsOf g x → Q a) :
    ∀ (n : Nat) (frontier visited : List String),
    walkFuel g visited frontier ≤ n →
    (∀ y ∈ frontier, y ∈ nodeList g) →
    visited.Nodup →
    (∀ v ∈ visited, ∀ a ∈ dependantsOf g v, a ∈ visited ∨ a ∈ frontier) →
    (∀ y ∈ visited, Q y) →
    (∀ y ∈ frontier, Q y) →
    (walkF g n frontier visited).Nodup ∧
    (∀ y ∈ visited, y ∈ walkF g n frontier visited) ∧
    (∀ y ∈ frontier, y ∈ walkF g n frontier visited) ∧
    (∀ v ∈ walkF g n frontier visited, ∀ a ∈ dependantsOf g v,
      a ∈ walkF g n frontier visited) ∧
    (∀ y ∈ walkF g n frontier visited, Q y) := by
  intro n
  induction n with
  | zero =>
    intro frontier visited hfuel hfr hnd hclos hQv hQf
    have hfe : frontier = [] := by
      have : frontier.length = 0 := by
        simp only [walkFuel] at hfuel
        omega
      exact List.length_eq_zero.mp this
    subst hfe
    simp only [walkF]
    refine ⟨hnd, ?_, ?_, ?_, hQv⟩
    · exact fun y hy => hy
    · intro y hy
      cases hy
    · intro v hv a ha
      rcases hclos v hv a ha with h | h
      · exact h
      · cases h
  | succ n ih =>
    intro frontier visited hfuel hfr hnd hclos hQv hQf
    match frontier with
    | [] =>
      simp only [walkF]
      refine ⟨hnd, ?_, ?_, ?_, hQv⟩
      · exact fun y hy => hy
      · intro y hy
        cases hy
      · intro v hv a ha
        rcases hclos v hv a ha with h | h
        · exact h
        · cases h
    | x :: rest =>
      by_cases hx : x ∈ visited
      · have hw : walkF g (n + 1) (x :: rest) visited = walkF g n rest visited := by
          simp only [walkF, if_pos hx]
        have hfuel2 : walkFuel g visited rest ≤ n := by
          simp only [walkFuel, List.length_cons] at hfuel ⊢
          omega
        have hclos2 : ∀ v ∈ visited, ∀ a ∈ dependantsOf g v,
            a ∈ visited ∨ a ∈ rest := by
          intro v hv a ha
          rcases hclos v hv a ha with h | h
          · exact Or.inl h
          · rcases List.mem_cons.mp h with h1 | h1
            · exact Or.inl (h1 ▸ hx)
            · exact Or.inr h1
        obtain ⟨ind, imono, ifr, iclos, iQ⟩ :=
          ih rest visited hfuel2
            (fun y hy => hfr y (List.mem_cons_of_mem x hy)) hnd hclos2 hQv
            (fun y hy => hQf y (List.mem_cons_of_mem x hy))
        rw [hw]
        refine ⟨ind, imono, ?_, iclos, iQ⟩
        intro y hy
        rcases List.mem_cons.mp hy with h1 | h1
        · exact imono y (h1 ▸ hx)
        · exact ifr y h1
      · have hw : walkF g (n + 1) (x :: rest) visited =
            walkF g n (dependantsOf g x ++ rest) (x :: visited) := by
          simp only [walkF, if_neg hx]
        have hxnode : x ∈ nodeList g := hfr x (List.mem_cons_self x rest)
        have hfuel2 : walkFuel g (x :: visited) (dependantsOf g x ++ rest) ≤ n := by
          have hU := filter_visited_cons_length_lt (nodeList g) visited x hxnode hx
          have hD := dependantsOf_length_le g x
          simp only [walkFuel, List.length_cons, List.length_append] at hfuel ⊢
          have hmul : (((nodeList g).filter (fun y => y ∉ x :: visited)).length + 1) *
              (g.edges.length + 1) ≤
              ((nodeList g).filter (fun y => y ∉ visited)).length *
              (g.edges.length + 1) :=
            Nat.mul_le_mul_right _ hU
          rw [Nat.succ_mul] at hmul
          generalize ((nodeList g).filter (fun y => y ∉ x :: visited)).length *
            (g.edges.length + 1) = A at hmul ⊢
          generalize ((nodeList g).filter (fun y => y ∉ visited)).length *
            (g.edges.length + 1) = B at hmul hfuel
          omega
        have hfr2 : ∀ y ∈ dependantsOf g x ++ rest, y ∈ nodeList g := by
          intro y hy
          rcases List.mem_append.mp hy with h1 | h1
          · exact dependantsOf_subset_nodeList g x y h1
          · exact hfr y (List.mem_cons_of_mem x h1)
        have hnd2 : (x :: visited).Nodup := List.nodup_cons.mpr ⟨hx, hnd⟩
        have hclos2 : ∀ v ∈ x :: visited, ∀ a ∈ dependantsOf g v,
            a ∈ x :: visited ∨ a ∈ dependantsOf g x ++ rest := by
          intro v hv a ha
          rcases List.mem_cons.mp hv with h1 | h1
          · subst h1
            exact Or.inr (List.mem_append_left rest ha)
          · rcases hclos v h1 a ha with h2 | h2
            · exact Or.inl (List.mem_cons_of_mem x h2)
            · rcases List.mem_cons.mp h2 with h3 | h3
              · exact Or.inl (h3 ▸ List.mem_cons_self x visited)
              · exact Or.inr (List.mem_append_right _ h3)
        have hQx : Q x := hQf x (List.mem_cons_self x rest)
        have hQv2 : ∀ y ∈ x :: visited, Q y := by
          intro y hy
          rcases List.mem_cons.mp hy with h1 | h1
          · exact h1 ▸ hQx
          · exact hQv y h1
        have hQf2 : ∀ y ∈ dependantsOf g x ++ rest, Q y := by
          intro y hy
          rcases List.mem_append.mp hy with h1 | h1
          · exact HQ x y hQx h1
          · exact hQf y (List.mem_cons_of_mem x h1)
        obtain ⟨ind, imono, ifr, iclos, iQ⟩ :=
          ih (dependantsOf g x ++ rest) (x :: visited) hfuel2 hfr2 hnd2 hclos2 hQv2 hQf2
        rw [hw]
        refine ⟨ind, fun y hy => imono y (List.mem_cons_of_mem x hy), ?_, iclos, iQ⟩
        intro y hy
        rcases List.mem_cons.mp hy with h1 | h1
        · exact imono y (h1 ▸ List.mem_cons_self x visited)
        · exact ifr y (List.mem_append_right _ h1)

/-- The traversal from root p computes exactly p plus the transitive
dependants of p. -/
theorem walk_root_spec (g : DependencyGraph) (p : String) :
    (walkF g (walkFuel g [p] (dependantsOf g p)) (dependantsOf g p) [p]).Nodup ∧
    ∀ x, x ∈ walkF g (walkFuel g [p] (dependantsOf g p)) (dependantsOf g p) [p] ↔
      (x = p ∨ Reaches g p x) := by
  have HQ : ∀ x a, (x = p ∨ Reaches g p x) → a ∈ dependantsOf g x →
      (a = p ∨ Reaches g p a) := by
    intro x a hx ha
    rcases hx with h | h
    · exact Or.inr (Reaches.base (h ▸ (mem_dependantsOf g x a).mp ha))
    · exact Or.inr (Reaches.step h ((mem_dependantsOf g x a).mp ha))
  obtain ⟨hnd, hmono, hfr, hclos, hQ⟩ :=
    walkF_spec g (fun y => y = p ∨ Reaches g p y) HQ
      (walkFuel g [p] (dependantsOf g p)) (dependantsOf g p) [p]
      (Nat.le_refl _)
      (fun y hy => dependantsOf_subset_nodeList g p y hy)
      (List.nodup_singleton p)
      (by
        intro v hv a ha
        have hv2 : v = p := by simpa using hv
        exact Or.inr (hv2 ▸ ha))
      (by
        intro y hy
        have : y = p := by simpa using hy
        exact Or.inl this)
      (fun y hy => Or.inr (Reaches.base ((mem_dependantsOf g p y).mp hy)))
  refine ⟨hnd, fun x => ⟨fun hx => hQ x hx, fun hx => ?_⟩⟩
  rcases hx with h | h
  · exact h ▸ hmono p (List.mem_singleton.mpr rfl)
  · induction h with
    | base hab => exact hfr _ ((mem_dependantsOf g p _).mpr hab)
    | step hr hab ih => exact hclos _ ih _ ((mem_dependantsOf g _ _).mpr hab)

theorem getAllDependantsOf_spec (g : DependencyGraph) (p : String) :
    (getAllDependantsOf g p).Nodup ∧ p ∉ getAllDependantsOf g p ∧
    (∀ x, x ∈ getAllDependantsOf g p ↔ (Reaches g p x ∧ x ≠ p)) := by
  obtain ⟨hnd, hmem⟩ := walk_root_spec g p
  refine ⟨hnd.filter _, ?_, ?_⟩
  · intro hp
    have := (List.mem_filter.mp hp).2
    simp at this
  · intro x
    constructor
    · intro hx
      obtain ⟨hxw, hxp⟩ := List.mem_filter.mp hx
      have hxp2 : x ≠ p := by simpa using hxp
      rcases (hmem x).mp hxw with h | h
      · exact absurd h hxp2
      · exact ⟨h, hxp2⟩
    · intro ⟨hr, hxp⟩
      exact List.mem_filter.mpr ⟨(hmem x).mpr (Or.inr hr), by simpa using hxp⟩

/-- C8: for every dependency graph, including cyclic ones, the total
function getAllDependantsOf returns, without duplicates, exactly the
documents reachable from the given id along reverse edges, always
excluding the id itself; on the three-cycle A to B to C to A the
dependants of A are exactly B and C. -/
theorem c8_getAllDependantsOf_correct :
    (∀ (g : DependencyGraph) (p : String),
      (getAllDependantsOf g p).Nodup ∧ p ∉ getAllDependantsOf g p ∧
      (∀ x, x ∈ getAllDependantsOf g p ↔ (Reaches g p x ∧ x ≠ p))) ∧
    getAllDependantsOf ⟨[("A", "B"), ("B", "C"), ("C", "A")]⟩ "A" = ["B", "C"] := by
  refine ⟨getAllDependantsOf_spec, ?_⟩
  decide

/-- invalidatePaths from dependency-graph.ts, modelled from the spec
(section 4.2): compute, against the receiver, the union of the ids and all
their transitive dependants, and return a new graph with every edge
touching that union removed; the receiver is unchanged. -/
def invalidatePaths (g : DependencyGraph) (ids : List String) : DependencyGraph :=
  let toInvalidate := ids.foldl
    (fun acc q => acc ++ (getAllDependantsOf g q).filter (fun d => d ∉ acc)) ids
  ⟨g.edges.filter (fun e => e.1 ∉ toInvalidate ∧ e.2 ∉ toInvalidate)⟩

/-- AnalysisCache from analysis-cache.ts: four work caches, the two
synchronous published mappings, and one dependency graph. -/
structure AnalysisCache (P S D : Type) where
  parsedDocumentPromises : AsyncWorkCache String P
  scannedDocumentPromises : AsyncWorkCache String S
  dependenciesScannedPromises : AsyncWorkCache String S
  analyzedDocumentPromises : AsyncWorkCache String D
  scannedDocuments : KVMap String S
  analyzedDocuments : KVMap String D
  dependencyGraph : DependencyGraph
deriving DecidableEq

/-- The AnalysisCache constructor (analysis-cache.ts lines 47 to 60):
copy every cache and mapping from the given cache when present, else start
empty; use the supplied dependency graph, else a fresh empty one. -/
def fork {P S D : Type} (f : Option (AnalysisCache P S D))
    (g : Option DependencyGraph) : AnalysisCache P S D :=
  match f with
  | some c =>
    { parsedDocumentPromises := c.parsedDocumentPromises
      scannedDocumentPromises := c.scannedDocumentPromises
      dependenciesScannedPromises := c.dependenciesScannedPromises
      analyzedDocumentPromises := c.analyzedDocumentPromises
      scannedDocuments := c.scannedDocuments
      analyzedDocuments := c.analyzedDocuments
      dependencyGraph := g.getD ⟨[]⟩ }
  | none =>
    { parsedDocumentPromises := []
      scannedDocumentPromises := []
      dependenciesScannedPromises := []
      analyzedDocumentPromises := []
      scannedDocuments := []
      analyzedDocuments := []
      dependencyGraph := g.getD ⟨[]⟩ }

/-- The body of the inner loop over dependants (analysis-cache.ts lines
85 to 88): a partially invalidated path loses its dependencies-scanned
entry and its published analyzed result. -/
def scrubDependant {P S D : Type} (nc : AnalysisCache P S D)
    (d : String) : AnalysisCache P S D :=
  { nc with
    dependenciesScannedPromises := awcDelete nc.dependenciesScannedPromises d
    analyzedDocuments := mdelete nc.analyzedDocuments d }

/-- The body of the loop over documentPaths in invalidate
(analysis-cache.ts lines 71 to 98); the dependants are computed against
the parent cache s, not the forked newCache. -/
def invalidateOne {P S D : Type} (s : AnalysisCache P S D)
    (newCache : AnalysisCache P S D) (path : String) : AnalysisCache P S D :=
  let dependants := getAllDependantsOf s.dependencyGraph path
  let nc1 := { newCache with
    parsedDocumentPromises := awcDelete newCache.parsedDocumentPromises path
    scannedDocumentPromises := awcDelete newCache.scannedDocumentPromises path
    dependenciesScannedPromises := awcDelete newCache.dependenciesScannedPromises path
    scannedDocuments := mdelete newCache.scannedDocuments path
    analyzedDocuments := mdelete newCache.analyzedDocuments path }
  let nc2 := dependants.foldl scrubDependant nc1
  let nc3 := { nc2 with analyzedDocumentPromises := awcClear }
  { nc3 with analyzedDocumentPromises :=
      (nc3.analyzedDocuments.foldl (fun c kv => awcSet c kv.1 kv.2)
        nc3.analyzedDocumentPromises) }

/-- invalidate from analysis-cache.ts (lines 68 to 101): fork a new cache
with the invalidated graph, then process each changed path in turn. -/
def invalidate {P S D : Type} (s : AnalysisCache P S D)
    (documentPaths : List String) : AnalysisCache P S D :=
  let newCache := fork (some s)
    (some (invalidatePaths s.dependencyGraph documentPaths))
  documentPaths.foldl (invalidateOne s) newCache

/-- Modelled from the spec (section 4.3, step 3c): a dependant d is
removed from the dependencies-scanned work cache, the published analyzed
mapping, and the analyzed work cache. -/
def scrubDependantSpec {P S D : Type} (nc : AnalysisCache P S D)
    (d : String) : AnalysisCache P S D :=
  { nc with
    dependenciesScannedPromises := awcDelete nc.dependenciesScannedPromises d
    analyzedDocumentPromises := awcDelete nc.analyzedDocumentPromises d
    analyzedDocuments := mdelete nc.analyzedDocuments d }

/-- Modelled from the spec (section 4.3, step 3 of the five-step
algorithm): per-id removals, with the analyzed work cache also scrubbed
per id and per dependant, as the spec prescribes in 3b and 3c. -/
def invalidateSpecStep {P S D : Type} (s : AnalysisCache P S D)
    (nc : AnalysisCache P S D) (q : String) : AnalysisCache P S D :=
  let dependants := getAllDependantsOf s.dependencyGraph q
  let nc1 := { nc with
    parsedDocumentPromises := awcDelete nc.parsedDocumentPromises q
    scannedDocumentPromises := awcDelete nc.scannedDocumentPromises q
    dependenciesScannedPromises := awcDelete nc.dependenciesScannedPromises q
    analyzedDocumentPromises := awcDelete nc.analyzedDocumentPromises q
    scannedDocuments := mdelete nc.scannedDocuments q
    analyzedDocuments := mdelete nc.analyzedDocuments q }
  dependants.foldl scrubDependantSpec nc1

/-- Modelled from the spec (section 4.3): the five-step invalidate
algorithm in which step 4 - clear the analyzed work cache, then re-seed it
from the published analyzed mapping - runs exactly once, after all ids are
processed, outside the per-id loop. -/
def invalidateSpec {P S D : Type} (s : AnalysisCache P S D)
    (ids : List String) : AnalysisCache P S D :=
  let next0 := fork (some s) (some (invalidatePaths s.dependencyGraph ids))
  let next1 := ids.foldl (invalidateSpecStep s) next0
  { next1 with analyzedDocumentPromises :=
      (next1.analyzedDocuments.foldl (fun c kv => awcSet c kv.1 kv.2) awcClear) }

/-- The id is one that invalidate(ids) must scrub: either changed itself
or a transitive dependant (against graph g) of a changed id. -/
abbrev invalidTarget (g : DependencyGraph) (ids : List String) (k : String) : Prop :=
  k ∈ ids ∨ ∃ q ∈ ids, k ∈ getAllDependantsOf g q

theorem mfind_foldl_mdelete {V : Type} (ds : List String) (m : KVMap String V)
    (k : String) :
    mfind (ds.foldl mdelete m) k = if k ∈ ds then none else mfind m k := by
  induction ds generalizing m with
  | nil => simp
  | cons d rest ih =>
    simp only [List.foldl_cons]
    rw [ih]
    by_cases h1 : k ∈ rest
    · simp [h1]
    · rw [if_neg h1, mfind_mdelete]
      by_cases h2 : k = d <;> simp [h2, h1]

theorem mfind_foldl_awcDelete {V : Type} (ds : List String)
    (m : AsyncWorkCache String V) (k : String) :
    mfind (ds.foldl awcDelete m) k = if k ∈ ds then none else mfind m k :=
  mfind_foldl_mdelete ds m k

theorem keysNodup_foldl_mdelete {V : Type} (ds : List String) (m : KVMap String V)
    (h : keysNodup m) : keysNodup (ds.foldl mdelete m) := by
  induction ds generalizing m with
  | nil => exact h
  | cons d rest ih =>
    simp only [List.foldl_cons]
    exact ih (mdelete m d) (keysNodup_mdelete m d h)

theorem sublist_foldl_mdelete {V : Type} (ds : List String) (m : KVMap String V) :
    List.Sublist (ds.foldl mdelete m) m := by
  induction ds generalizing m with
  | nil => exact List.Sublist.refl m
  | cons d rest ih =>
    simp only [List.foldl_cons]
    exact (ih (mdelete m d)).trans (List.filter_sublist m)

/-- The inner loop over dependants leaves every field alone except the
dependencies-scanned work cache and the published analyzed mapping. -/
theorem scrub_fold_fields {P S D : Type} (ds : List String)
    (nc : AnalysisCache P S D) :
    (ds.foldl scrubDependant nc).parsedDocumentPromises = nc.parsedDocumentPromises ∧
    (ds.foldl scrubDependant nc).scannedDocumentPromises = nc.scannedDocumentPromises ∧
    (ds.foldl scrubDependant nc).analyzedDocumentPromises = nc.analyzedDocumentPromises ∧
    (ds.foldl scrubDependant nc).scannedDocuments = nc.scannedDocuments ∧
    (ds.foldl scrubDependant nc).dependencyGraph = nc.dependencyGraph ∧
    (ds.foldl scrubDependant nc).dependenciesScannedPromises =
      ds.foldl awcDelete nc.dependenciesScannedPromises ∧
    (ds.foldl scrubDependant nc).analyzedDocuments =
      ds.foldl mdelete nc.analyzedDocuments := by
  induction ds generalizing nc with
  | nil => exact ⟨rfl, rfl, rfl, rfl, rfl, rfl, rfl⟩
  | cons d rest ih =>
    simp only [List.foldl_cons]
    obtain ⟨h1, h2, h3, h4, h5, h6, h7⟩ := ih (scrubDependant nc d)
    exact ⟨h1, h2, h3, h4, h5, h6, h7⟩

/-- The inner loop of the spec algorithm leaves every field alone except
the dependencies-scanned and analyzed work caches and the published
analyzed mapping. -/
theorem scrubSpec_fold_fields {P S D : Type} (ds : List String)
    (nc : AnalysisCache P S D) :
    (ds.foldl scrubDependantSpec nc).parsedDocumentPromises = nc.parsedDocumentPromises ∧
    (ds.foldl scrubDependantSpec nc).scannedDocumentPromises = nc.scannedDocumentPromises ∧
    (ds.foldl scrubDependantSpec nc).scannedDocuments = nc.scannedDocuments ∧
    (ds.foldl scrubDependantSpec nc).dependencyGraph = nc.dependencyGraph ∧
    (ds.foldl scrubDependantSpec nc).dependenciesScannedPromises =
      ds.foldl awcDelete nc.dependenciesScannedPromises ∧
    (ds.foldl scrubDependantSpec nc).analyzedDocuments =
      ds.foldl mdelete nc.analyzedDocuments := by
  induction ds generalizing nc with
  | nil => exact ⟨rfl, rfl, rfl, rfl, rfl, rfl⟩
  | cons d rest ih =>
    simp only [List.foldl_cons]
    obtain ⟨h1, h2, h3, h4, h5, h6⟩ := ih (scrubDependantSpec nc d)
    exact ⟨h1, h2, h3, h4, h5, h6⟩

/-- The re-seeding loop of invalidate (analysis-cache.ts lines 94 to 97):
clear, then install every published analyzed result as resolved. -/
def reseed {D : Type} (m : KVMap String D) : AsyncWorkCache String D :=
  m.foldl (fun c kv => awcSet c kv.1 kv.2) awcClear

theorem foldl_awcSet_append {D : Type} (m : KVMap String D) :
    ∀ acc : AsyncWorkCache String D,
    (∀ k ∈ m.map Prod.fst, mfind acc k = none) → keysNodup m →
    m.foldl (fun c kv => awcSet c kv.1 kv.2) acc =
      acc ++ m.map (fun kv => (kv.1, Entry.resolved kv.2)) := by
  induction m with
  | nil => intro acc _ _; simp
  | cons kv rest ih =>
    intro acc hacc hnd
    obtain ⟨k, v⟩ := kv
    simp only [List.foldl_cons, List.map_cons]
    have hk : mfind acc k = none := hacc k (by simp)
    have hset : awcSet acc k v = acc ++ [(k, Entry.resolved v)] :=
      mset_eq_append acc k (Entry.resolved v) hk
    rw [hset]
    have hnd2 : keysNodup rest := (List.nodup_cons.mp hnd).2
    have hknotin : k ∉ rest.map Prod.fst := (List.nodup_cons.mp hnd).1
    have hacc2 : ∀ k2 ∈ rest.map Prod.fst,
        mfind (acc ++ [(k, Entry.resolved v)]) k2 = none := by
      intro k2 hk2
      have hkk2 : ¬ k = k2 := fun hh => hknotin (hh ▸ hk2)
      rw [mfind_append_right acc _ k2 (hacc k2 (List.mem_cons_of_mem _ hk2))]
      simp [mfind, hkk2]
    rw [ih (acc ++ [(k, Entry.resolved v)]) hacc2 hnd2]
    simp

theorem reseed_eq_map {D : Type} (m : KVMap String D) (hnd : keysNodup m) :
    reseed m = m.map (fun kv => (kv.1, Entry.resolved kv.2)) := by
  have := foldl_awcSet_append m awcClear (by intro k _; rfl) hnd
  simpa [reseed, awcClear] using this

theorem mfind_reseed {D : Type} (m : KVMap String D) (hnd : keysNodup m)
    (k : String) :
    mfind (reseed m) k = (mfind m k).map Entry.resolved := by
  rw [reseed_eq_map m hnd]
  exact mfind_map_value m Entry.resolved k

theorem cache_ext {P S D : Type} (a b : AnalysisCache P S D)
    (h1 : a.parsedDocumentPromises = b.parsedDocumentPromises)
    (h2 : a.scannedDocumentPromises = b.scannedDocumentPromises)
    (h3 : a.dependenciesScannedPromises = b.dependenciesScannedPromises)
    (h4 : a.analyzedDocumentPromises = b.analyzedDocumentPromises)
    (h5 : a.scannedDocuments = b.scannedDocuments)
    (h6 : a.analyzedDocuments = b.analyzedDocuments)
    (h7 : a.dependencyGraph = b.dependencyGraph) : a = b := by
  cases a
  cases b
  simp_all

/-- Closed form of one iteration of the invalidation loop. -/
theorem invalidateOne_eq {P S D : Type} (s : AnalysisCache P S D)
    (nc : AnalysisCache P S D) (path : String) :
    invalidateOne s nc path =
      { parsedDocumentPromises := awcDelete nc.parsedDocumentPromises path
        scannedDocumentPromises := awcDelete nc.scannedDocumentPromises path
        dependenciesScannedPromises :=
          (getAllDependantsOf s.dependencyGraph path).foldl awcDelete
            (awcDelete nc.dependenciesScannedPromises path)
        analyzedDocumentPromises :=
          reseed ((getAllDependantsOf s.dependencyGraph path).foldl mdelete
            (mdelete nc.analyzedDocuments path))
        scannedDocuments := mdelete nc.scannedDocuments path
        analyzedDocuments :=
          (getAllDependantsOf s.dependencyGraph path).foldl mdelete
            (mdelete nc.analyzedDocuments path)
        dependencyGraph := nc.dependencyGraph } := by
  obtain ⟨h1, h2, h3, h4, h5, h6, h7⟩ :=
    scrub_fold_fields (getAllDependantsOf s.dependencyGraph path)
      { nc with
        parsedDocumentPromises := awcDelete nc.parsedDocumentPromises path
        scannedDocumentPromises := awcDelete nc.scannedDocumentPromises path
        dependenciesScannedPromises := awcDelete nc.dependenciesScannedPromises path
        scannedDocuments := mdelete nc.scannedDocuments path
        analyzedDocuments := mdelete nc.analyzedDocuments path }
  apply cache_ext <;>
    simp only [invalidateOne, reseed] <;>
    simp only [h1, h2, h3, h4, h5, h6, h7]

theorem invalidTarget_cons (g : DependencyGraph) (p : String) (rest : List String)
    (k : String) :
    invalidTarget g (p :: rest) k ↔
      (k = p ∨ k ∈ getAllDependantsOf g p ∨ invalidTarget g rest k) := by
  simp only [invalidTarget, List.mem_cons]
  constructor
  · rintro (h | h) 
    · rcases h with h | h
      · exact Or.inl h
      · exact Or.inr (Or.inr (Or.inl h))
    · rcases h with ⟨q, hq, hk⟩
      rcases hq with hq | hq
      · exact Or.inr (Or.inl (hq ▸ hk))
      · exact Or.inr (Or.inr (Or.inr ⟨q, hq, hk⟩))
  · rintro (h | h | h | h)
    · exact Or.inl (Or.inl h)
    · exact Or.inr ⟨p, Or.inl rfl, h⟩
    · exact Or.inl (Or.inr h)
    · rcases h with ⟨q, hq, hk⟩
      exact Or.inr ⟨q, Or.inr hq, hk⟩

theorem fold_graph {P S D : Type} (s : AnalysisCache P S D) (ids : List String) :
    ∀ nc : AnalysisCache P S D,
    (ids.foldl (invalidateOne s) nc).dependencyGraph = nc.dependencyGraph := by
  induction ids with
  | nil => intro nc; rfl
  | cons p rest ih =>
    intro nc
    simp only [List.foldl_cons]
    rw [ih]
    simp only [invalidateOne_eq]

theorem fold_find_parsed {P S D : Type} (s : AnalysisCache P S D)
    (ids : List String) :
    ∀ (nc : AnalysisCache P S D) (k : String),
    mfind (ids.foldl (invalidateOne s) nc).parsedDocumentPromises k =
      if k ∈ ids then none else mfind nc.parsedDocumentPromises k := by
  induction ids with
  | nil => intro nc k; simp
  | cons p rest ih =>
    intro nc k
    simp only [List.foldl_cons]
    rw [ih]
    by_cases h1 : k ∈ rest
    · simp [h1]
    · rw [if_neg h1]
      simp only [invalidateOne_eq]
      show mfind (mdelete nc.parsedDocumentPromises p) k = _
      rw [mfind_mdelete]
      by_cases h2 : k = p <;> simp [h2, h1]

theorem fold_find_scannedProm {P S D : Type} (s : AnalysisCache P S D)
    (ids : List String) :
    ∀ (nc : AnalysisCache P S D) (k : String),
    mfind (ids.foldl (invalidateOne s) nc).scannedDocumentPromises k =
      if k ∈ ids then none else mfind nc.scannedDocumentPromises k := by
  induction ids with
  | nil => intro nc k; simp
  | cons p rest ih =>
    intro nc k
    simp only [List.foldl_cons]
    rw [ih]
    by_cases h1 : k ∈ rest
    · simp [h1]
    · rw [if_neg h1]
      simp only [invalidateOne_eq]
      show mfind (mdelete nc.scannedDocumentPromises p) k = _
      rw [mfind_mdelete]
      by_cases h2 : k = p <;> simp [h2, h1]

theorem fold_find_scannedDocs {P S D : Type} (s : AnalysisCache P S D)
    (ids : List String) :
    ∀ (nc : AnalysisCache P S D) (k : String),
    mfind (ids.foldl (invalidateOne s) nc).scannedDocuments k =
      if k ∈ ids then none else mfind nc.scannedDocuments k := by
  induction ids with
  | nil => intro nc k; simp
  | cons p rest ih =>
    intro nc k
    simp only [List.foldl_cons]
    rw [ih]
    by_cases h1 : k ∈ rest
    · simp [h1]
    · rw [if_neg h1]
      simp only [invalidateOne_eq]
      rw [mfind_mdelete]
      by_cases h2 : k = p <;> simp [h2, h1]

theorem fold_find_ds {P S D : Type} (s : AnalysisCache P S D)
    (ids : List String) :
    ∀ (nc : AnalysisCache P S D) (k : String),
    mfind (ids.foldl (invalidateOne s) nc).dependenciesScannedPromises k =
      if invalidTarget s.dependencyGraph ids k then none
      else mfind nc.dependenciesScannedPromises k := by
  induction ids with
  | nil => intro nc k; simp [invalidTarget]
  | cons p rest ih =>
    intro nc k
    simp only [List.foldl_cons]
    rw [ih]
    by_cases h1 : invalidTarget s.dependencyGraph rest k
    · rw [if_pos h1,
        if_pos ((invalidTarget_cons _ p rest k).mpr (Or.inr (Or.inr h1)))]
    · rw [if_neg h1]
      simp only [invalidateOne_eq]
      rw [mfind_foldl_awcDelete]
      by_cases h2 : k ∈ getAllDependantsOf s.dependencyGraph p
      · rw [if_pos h2,
          if_pos ((invalidTarget_cons _ p rest k).mpr (Or.inr (Or.inl h2)))]
      · rw [if_neg h2]
        show mfind (mdelete nc.dependenciesScannedPromises p) k = _
        rw [mfind_mdelete]
        by_cases h3 : k = p
        · rw [if_pos h3, if_pos ((invalidTarget_cons _ p rest k).mpr (Or.inl h3))]
        · rw [if_neg h3, if_neg (fun hc => by
            rcases (invalidTarget_cons _ p rest k).mp hc with h | h | h
            · exact h3 h
            · exact h2 h
            · exact h1 h)]

theorem fold_find_docsA {P S D : Type} (s : AnalysisCache P S D)
    (ids : List String) :
    ∀ (nc : AnalysisCache P S D) (k : String),
    mfind (ids.foldl (invalidateOne s) nc).analyzedDocuments k =
      if invalidTarget s.dependencyGraph ids k then none
      else mfind nc.analyzedDocuments k := by
  induction ids with
  | nil => intro nc k; simp [invalidTarget]
  | cons p rest ih =>
    intro nc k
    simp only [List.foldl_cons]
    rw [ih]
    by_cases h1 : invalidTarget s.dependencyGraph rest k
    · rw [if_pos h1,
        if_pos ((invalidTarget_cons _ p rest k).mpr (Or.inr (Or.inr h1)))]
    · rw [if_neg h1]
      simp only [invalidateOne_eq]
      rw [mfind_foldl_mdelete]
      by_cases h2 : k ∈ getAllDependantsOf s.dependencyGraph p
      · rw [if_pos h2,
          if_pos ((invalidTarget_cons _ p rest k).mpr (Or.inr (Or.inl h2)))]
      · rw [if_neg h2]
        rw [mfind_mdelete]
        by_cases h3 : k = p
        · rw [if_pos h3, if_pos ((invalidTarget_cons _ p rest k).mpr (Or.inl h3))]
        · rw [if_neg h3, if_neg (fun hc => by
            rcases (invalidTarget_cons _ p rest k).mp hc with h | h | h
            · exact h3 h
            · exact h2 h
            · exact h1 h)]

theorem fold_nodupA {P S D : Type} (s : AnalysisCache P S D) (ids : List String) :
    ∀ nc : AnalysisCache P S D, keysNodup nc.analyzedDocuments →
    keysNodup (ids.foldl (invalidateOne s) nc).analyzedDocuments := by
  induction ids with
  | nil => intro nc h; exact h
  | cons p rest ih =>
    intro nc h
    simp only [List.foldl_cons]
    apply ih
    simp only [invalidateOne_eq]
    exact keysNodup_foldl_mdelete _ _ (keysNodup_mdelete _ _ h)

theorem fold_subScan {P S D : Type} (s : AnalysisCache P S D) (ids : List String) :
    ∀ nc : AnalysisCache P S D,
    List.Sublist (ids.foldl (invalidateOne s) nc).scannedDocuments
      nc.scannedDocuments := by
  induction ids with
  | nil => intro nc; exact List.Sublist.refl _
  | cons p rest ih =>
    intro nc
    simp only [List.foldl_cons]
    refine (ih (invalidateOne s nc p)).trans ?_
    simp only [invalidateOne_eq]
    exact List.filter_sublist nc.scannedDocuments

theorem fold_subA {P S D : Type} (s : AnalysisCache P S D) (ids : List String) :
    ∀ nc : AnalysisCache P S D,
    List.Sublist (ids.foldl (invalidateOne s) nc).analyzedDocuments
      nc.analyzedDocuments := by
  induction ids with
  | nil => intro nc; exact List.Sublist.refl _
  | cons p rest ih =>
    intro nc
    simp only [List.foldl_cons]
    refine (ih (invalidateOne s nc p)).trans ?_
    simp only [invalidateOne_eq]
    exact (sublist_foldl_mdelete _ _).trans (List.filter_sublist nc.analyzedDocuments)

theorem fold_find_promA {P S D : Type} (s : AnalysisCache P S D)
    (ids : List String) :
    ids ≠ [] → ∀ nc : AnalysisCache P S D, keysNodup nc.analyzedDocuments →
    ∀ k : String,
    mfind (ids.foldl (invalidateOne s) nc).analyzedDocumentPromises k =
      (mfind (ids.foldl (invalidateOne s) nc).analyzedDocuments k).map
        Entry.resolved := by
  induction ids with
  | nil => intro h; exact absurd rfl h
  | cons p rest ih =>
    intro _ nc hnd k
    simp only [List.foldl_cons]
    by_cases hrest : rest = []
    · subst hrest
      simp only [List.foldl_nil]
      simp only [invalidateOne_eq]
      exact mfind_reseed _ (keysNodup_foldl_mdelete _ _ (keysNodup_mdelete _ _ hnd)) k
    · apply ih hrest
      simp only [invalidateOne_eq]
      exact keysNodup_foldl_mdelete _ _ (keysNodup_mdelete _ _ hnd)

theorem mfind_reseed_none {D : Type} (m : KVMap String D) (k : String)
    (h : mfind m k = none) : mfind (reseed m) k = none := by
  have hgen : ∀ (m2 : KVMap String D) (acc : AsyncWorkCache String D),
      mfind m2 k = none → mfind acc k = none →
      mfind (m2.foldl (fun c kv => awcSet c kv.1 kv.2) acc) k = none := by
    intro m2
    induction m2 with
    | nil => intro acc _ hacc; exact hacc
    | cons kv rest ih =>
      intro acc hm hacc
      obtain ⟨k2, v2⟩ := kv
      have hk2 : ¬ k2 = k := by
        intro hh
        simp [mfind, hh] at hm
      simp only [mfind, hk2, if_false] at hm
      simp only [List.foldl_cons]
      apply ih _ hm
      simp only [awcSet]
      rw [mfind_mset, if_neg (fun hh => hk2 hh.symm)]
      exact hacc
  exact hgen m awcClear h rfl

theorem fold_promA_none {P S D : Type} (s : AnalysisCache P S D)
    (ids : List String) :
    ∀ (nc : AnalysisCache P S D) (k : String), ids ≠ [] →
    mfind (ids.foldl (invalidateOne s) nc).analyzedDocuments k = none →
    mfind (ids.foldl (invalidateOne s) nc).analyzedDocumentPromises k = none := by
  induction ids with
  | nil => intro nc k h; exact absurd rfl h
  | cons p rest ih =>
    intro nc k _ hdocs
    simp only [List.foldl_cons] at hdocs ⊢
    by_cases hrest : rest = []
    · subst hrest
      simp only [List.foldl_nil] at hdocs ⊢
      simp only [invalidateOne_eq] at hdocs ⊢
      exact mfind_reseed_none _ k hdocs
    · exact ih (invalidateOne s nc p) k hrest hdocs

theorem invalidatePaths_nil (g : DependencyGraph) : invalidatePaths g [] = g := by
  simp only [invalidatePaths, List.foldl_nil]
  cases g with
  | mk edges =>
    congr 1
    apply List.filter_eq_self.mpr
    intro e _
    simp

theorem invalidate_nil {P S D : Type} (s : AnalysisCache P S D) :
    invalidate s [] = s := by
  simp only [invalidate, List.foldl_nil]
  rw [invalidatePaths_nil]
  cases s
  rfl

/-- C4: invalidate on the empty list is an identity: the resulting
snapshot has the same entries in all four stage work caches, the same two
published mappings and the same dependency graph edges; in fact it is the
very same snapshot value. -/
theorem c4_invalidate_nil_identity {P S D : Type} (s : AnalysisCache P S D) :
    invalidate s [] = s :=
  invalidate_nil s

/-- C1: after invalidate(paths), every id in paths and every transitive
dependant (computed against the pre-invalidation graph) of such an id has
no analyzed result and no dependencies-scanned result, in the published
synchronous mapping as well as in the asynchronous work caches. -/
theorem c1_invalidate_scrubs_targets {P S D : Type} (s : AnalysisCache P S D)
    (paths : List String) (p : String)
    (hp : invalidTarget s.dependencyGraph paths p) :
    mfind (invalidate s paths).analyzedDocuments p = none ∧
    mfind (invalidate s paths).analyzedDocumentPromises p = none ∧
    mfind (invalidate s paths).dependenciesScannedPromises p = none := by
  have hne : paths ≠ [] := by
    rcases hp with h | ⟨q, hq, -⟩
    · exact List.ne_nil_of_mem h
    · exact List.ne_nil_of_mem hq
  have hdocs : mfind (invalidate s paths).analyzedDocuments p = none := by
    simp only [invalidate]
    rw [fold_find_docsA]
    exact if_pos hp
  refine ⟨hdocs, ?_, ?_⟩
  · simp only [invalidate] at hdocs ⊢
    exact fold_promA_none s paths _ p hne hdocs
  · simp only [invalidate]
    rw [fold_find_ds]
    exact if_pos hp

/-- C3: a transitive dependant d of an invalidated id that is not itself
invalidated loses exactly its dependencies-scanned entry, its analyzed
work cache entry and its published analyzed result; its parsed and
scanned entries and its published scanned result are unchanged. -/
theorem c3_dependant_frame_effect {P S D : Type}
    (s : AnalysisCache P S D) (ids : List String) (d : String)
    (hdep : ∃ q ∈ ids, d ∈ getAllDependantsOf s.dependencyGraph q)
    (hnot : d ∉ ids) :
    mfind (invalidate s ids).dependenciesScannedPromises d = none ∧
    mfind (invalidate s ids).analyzedDocumentPromises d = none ∧
    mfind (invalidate s ids).analyzedDocuments d = none ∧
    mfind (invalidate s ids).parsedDocumentPromises d =
      mfind s.parsedDocumentPromises d ∧
    mfind (invalidate s ids).scannedDocumentPromises d =
      mfind s.scannedDocumentPromises d ∧
    mfind (invalidate s ids).scannedDocuments d = mfind s.scannedDocuments d := by
  have hp : invalidTarget s.dependencyGraph ids d := Or.inr hdep
  have hne : ids ≠ [] := by
    rcases hdep with ⟨q, hq, -⟩
    exact List.ne_nil_of_mem hq
  have hdocs : mfind (invalidate s ids).analyzedDocuments d = none := by
    simp only [invalidate]
    rw [fold_find_docsA]
    exact if_pos hp
  refine ⟨?_, ?_, hdocs, ?_, ?_, ?_⟩
  · simp only [invalidate]
    rw [fold_find_ds]
    exact if_pos hp
  · simp only [invalidate] at hdocs ⊢
    exact fold_promA_none s ids _ d hne hdocs
  · simp only [invalidate]
    rw [fold_find_parsed, if_neg hnot]
    rfl
  · simp only [invalidate]
    rw [fold_find_scannedProm, if_neg hnot]
    rfl
  · simp only [invalidate]
    rw [fold_find_scannedDocs, if_neg hnot]
    rfl

/-- A concrete snapshot used by the witnesses: three documents a, b, c
where a depends on b and b depends on c, all stages cached for a, b, c and
dependencies scanned for a and b. -/
def sampleCache : AnalysisCache Nat Nat Nat :=
  { parsedDocumentPromises :=
      [("a", Entry.resolved 1), ("b", Entry.resolved 2), ("c", Entry.resolved 3)]
    scannedDocumentPromises :=
      [("a", Entry.resolved 1), ("b", Entry.resolved 2), ("c", Entry.resolved 3)]
    dependenciesScannedPromises :=
      [("a", Entry.resolved 1), ("b", Entry.resolved 2)]
    analyzedDocumentPromises :=
      [("a", Entry.resolved 1), ("b", Entry.resolved 2), ("c", Entry.resolved 3)]
    scannedDocuments := [("a", 1), ("b", 2), ("c", 3)]
    analyzedDocuments := [("a", 1), ("b", 2), ("c", 3)]
    dependencyGraph := ⟨[("a", "b"), ("b", "c")]⟩ }

/-- Witness for C1: invalidating c scrubs the transitive dependant a. -/
theorem c1_invalidate_scrubs_targets_witness :
    mfind (invalidate sampleCache ["c"]).analyzedDocuments "a" = none ∧
    mfind (invalidate sampleCache ["c"]).analyzedDocumentPromises "a" = none ∧
    mfind (invalidate sampleCache ["c"]).dependenciesScannedPromises "a" = none :=
  c1_invalidate_scrubs_targets sampleCache ["c"] "a" (by decide)

/-- Witness for C3: after invalidating c, the dependant b keeps its parsed
and scanned results but loses dependencies-scanned and analyzed results. -/
theorem c3_dependant_frame_effect_witness :
    mfind (invalidate sampleCache ["c"]).dependenciesScannedPromises "b" = none ∧
    mfind (invalidate sampleCache ["c"]).analyzedDocumentPromises "b" = none ∧
    mfind (invalidate sampleCache ["c"]).analyzedDocuments "b" = none ∧
    mfind (invalidate sampleCache ["c"]).parsedDocumentPromises "b" =
      mfind sampleCache.parsedDocumentPromises "b" ∧
    mfind (invalidate sampleCache ["c"]).scannedDocumentPromises "b" =
      mfind sampleCache.scannedDocumentPromises "b" ∧
    mfind (invalidate sampleCache ["c"]).scannedDocuments "b" =
      mfind sampleCache.scannedDocuments "b" :=
  c3_dependant_frame_effect sampleCache ["c"] "b" (by decide) (by decide)

/-- C10: after a non-empty invalidation, the analyzed work cache and the
published analyzed mapping agree exactly: lookups coincide up to wrapping
the published value as a resolved entry, and in particular no in-flight
analyzed computation survives. -/
theorem c10_analyzed_caches_agree {P S D : Type} (s : AnalysisCache P S D)
    (ids : List String) (hne : ids ≠ [])
    (hnd : keysNodup s.analyzedDocuments) (k : String) :
    mfind (invalidate s ids).analyzedDocumentPromises k =
      (mfind (invalidate s ids).analyzedDocuments k).map Entry.resolved ∧
    ∀ cid : Nat, mfind (invalidate s ids).analyzedDocumentPromises k ≠
      some (Entry.pending cid) := by
  have heq : mfind (invalidate s ids).analyzedDocumentPromises k =
      (mfind (invalidate s ids).analyzedDocuments k).map Entry.resolved := by
    simp only [invalidate]
    exact fold_find_promA s ids hne
      (fork (some s) (some (invalidatePaths s.dependencyGraph ids))) hnd k
  refine ⟨heq, ?_⟩
  intro cid
  rw [heq]
  rcases mfind (invalidate s ids).analyzedDocuments k with _ | v <;> simp

/-- Witness for C10 at the concrete snapshot. -/
theorem c10_analyzed_caches_agree_witness :
    mfind (invalidate sampleCache ["c"]).analyzedDocumentPromises "b" =
      (mfind (invalidate sampleCache ["c"]).analyzedDocuments "b").map
        Entry.resolved ∧
    ∀ cid : Nat, mfind (invalidate sampleCache ["c"]).analyzedDocumentPromises "b" ≠
      some (Entry.pending cid) :=
  c10_analyzed_caches_agree sampleCache ["c"] (by decide) (by decide) "b"

/-- The async entry, when present, agrees with a published value: it is
exactly that value, resolved. -/
def entryAgrees {V : Type} (o : Option (Entry V)) (v : V) : Prop :=
  ∀ e, o = some e → e = Entry.resolved v

instance entryAgreesDecidable {V : Type} [DecidableEq V]
    (o : Option (Entry V)) (v : V) : Decidable (entryAgrees o v) :=
  decidable_of_iff (o = none ∨ o = some (Entry.resolved v)) (by
    constructor
    · rintro (h | h) e he
      · rw [h] at he; cases he
      · rw [h] at he; cases he; rfl
    · intro h
      rcases ho : o with _ | e
      · exact Or.inl rfl
      · exact Or.inr (by rw [h e ho]))

/-- Stage consistency (spec section 3, invariant 3): every id published in
a synchronous mapping that also has an entry in the matching work cache
maps to the identical value in both. -/
abbrev consistentCache {P S D : Type} (c : AnalysisCache P S D) : Prop :=
  (∀ kv ∈ c.scannedDocuments,
    entryAgrees (mfind c.scannedDocumentPromises kv.1) kv.2) ∧
  (∀ kv ∈ c.analyzedDocuments,
    entryAgrees (mfind c.analyzedDocumentPromises kv.1) kv.2)

/-- Well-formedness inherited from JavaScript Maps: published mappings
have pairwise distinct keys. -/
abbrev WFcache {P S D : Type} (c : AnalysisCache P S D) : Prop :=
  keysNodup c.scannedDocuments ∧ keysNodup c.analyzedDocuments

/-- Snapshots reachable through the operations of analysis-cache.ts: a
well-formed consistent seed (external publication, outside this core, is
required by the spec to keep the two views in agreement), forking, and
invalidation. -/
inductive ReachableCache {P S D : Type} : AnalysisCache P S D → Prop where
  | seed (c : AnalysisCache P S D) :
      WFcache c → consistentCache c → ReachableCache c
  | invalidateStep (c : AnalysisCache P S D) (ids : List String) :
      ReachableCache c → ReachableCache (invalidate c ids)
  | forkStep (c : AnalysisCache P S D) (g : Option DependencyGraph) :
      ReachableCache c → ReachableCache (fork (some c) g)

theorem invalidate_preserves_wf_consistent {P S D : Type}
    (s : AnalysisCache P S D) (ids : List String)
    (hwf : WFcache s) (hcons : consistentCache s) :
    WFcache (invalidate s ids) ∧ consistentCache (invalidate s ids) := by
  by_cases hne : ids = []
  · subst hne
    rw [invalidate_nil]
    exact ⟨hwf, hcons⟩
  · have hsubScan : List.Sublist (invalidate s ids).scannedDocuments
        s.scannedDocuments := by
      simp only [invalidate]
      exact fold_subScan s ids
        (fork (some s) (some (invalidatePaths s.dependencyGraph ids)))
    have hndA : keysNodup (invalidate s ids).analyzedDocuments := by
      simp only [invalidate]
      exact fold_nodupA s ids
        (fork (some s) (some (invalidatePaths s.dependencyGraph ids))) hwf.2
    refine ⟨⟨(hsubScan.map Prod.fst).nodup hwf.1, hndA⟩, ?_, ?_⟩
    · intro kv hkv
      have hchar : mfind (invalidate s ids).scannedDocumentPromises kv.1 =
          if kv.1 ∈ ids then none else mfind s.scannedDocumentPromises kv.1 := by
        simp only [invalidate]
        rw [fold_find_scannedProm]
        rfl
      by_cases hkid : kv.1 ∈ ids
      · rw [hchar, if_pos hkid]
        intro e he
        cases he
      · rw [hchar, if_neg hkid]
        exact hcons.1 kv (hsubScan.subset hkv)
    · intro kv hkv
      have heq : mfind (invalidate s ids).analyzedDocumentPromises kv.1 =
          (mfind (invalidate s ids).analyzedDocuments kv.1).map Entry.resolved := by
        simp only [invalidate]
        exact fold_find_promA s ids hne
          (fork (some s) (some (invalidatePaths s.dependencyGraph ids))) hwf.2 kv.1
      have hfind : mfind (invalidate s ids).analyzedDocuments kv.1 = some kv.2 :=
        mfind_mem _ kv hkv hndA
      intro e he
      rw [heq, hfind] at he
      cases he
      rfl

theorem reachable_wf_consistent {P S D : Type} (c : AnalysisCache P S D)
    (h : ReachableCache c) : WFcache c ∧ consistentCache c := by
  induction h with
  | seed c hwf hcons => exact ⟨hwf, hcons⟩
  | invalidateStep c ids _ ih =>
    exact invalidate_preserves_wf_consistent c ids ih.1 ih.2
  | forkStep c g _ ih => exact ⟨ih.1, ih.2⟩

/-- C9: in every reachable snapshot, an id present both in the published
synchronous mapping of a stage and in that stage work cache maps to the
identical value in both (the scanned and analyzed stages are the two that
publish synchronous mappings). -/
theorem c9_reachable_snapshots_consistent {P S D : Type}
    (c : AnalysisCache P S D) (h : ReachableCache c) : consistentCache c :=
  (reachable_wf_consistent c h).2

/-- Witness for C9: the snapshot obtained by invalidating c in the sample
cache is consistent. -/
theorem c9_reachable_snapshots_consistent_witness :
    consistentCache (invalidate sampleCache ["c"]) :=
  c9_reachable_snapshots_consistent (invalidate sampleCache ["c"])
    (ReachableCache.invalidateStep sampleCache ["c"]
      (ReachableCache.seed sampleCache (by decide) (by decide)))

theorem invalidateSpecStep_fields {P S D : Type} (s : AnalysisCache P S D)
    (nc : AnalysisCache P S D) (q : String) :
    (invalidateSpecStep s nc q).parsedDocumentPromises =
      awcDelete nc.parsedDocumentPromises q ∧
    (invalidateSpecStep s nc q).scannedDocumentPromises =
      awcDelete nc.scannedDocumentPromises q ∧
    (invalidateSpecStep s nc q).dependenciesScannedPromises =
      (getAllDependantsOf s.dependencyGraph q).foldl awcDelete
        (awcDelete nc.dependenciesScannedPromises q) ∧
    (invalidateSpecStep s nc q).scannedDocuments = mdelete nc.scannedDocuments q ∧
    (invalidateSpecStep s nc q).analyzedDocuments =
      (getAllDependantsOf s.dependencyGraph q).foldl mdelete
        (mdelete nc.analyzedDocuments q) ∧
    (invalidateSpecStep s nc q).dependencyGraph = nc.dependencyGraph := by
  obtain ⟨h1, h2, h3, h4, h5, h6⟩ :=
    scrubSpec_fold_fields (getAllDependantsOf s.dependencyGraph q)
      { nc with
        parsedDocumentPromises := awcDelete nc.parsedDocumentPromises q
        scannedDocumentPromises := awcDelete nc.scannedDocumentPromises q
        dependenciesScannedPromises := awcDelete nc.dependenciesScannedPromises q
        analyzedDocumentPromises := awcDelete nc.analyzedDocumentPromises q
        scannedDocuments := mdelete nc.scannedDocuments q
        analyzedDocuments := mdelete nc.analyzedDocuments q }
  refine ⟨?_, ?_, ?_, ?_, ?_, ?_⟩ <;>
    simp only [invalidateSpecStep] <;>
    simp only [h1, h2, h3, h4, h5, h6]

/-- Observational agreement on everything but the analyzed work cache. -/
def sameExceptPromA {P S D : Type} (a b : AnalysisCache P S D) : Prop :=
  a.parsedDocumentPromises = b.parsedDocumentPromises ∧
  a.scannedDocumentPromises = b.scannedDocumentPromises ∧
  a.dependenciesScannedPromises = b.dependenciesScannedPromises ∧
  a.scannedDocuments = b.scannedDocuments ∧
  a.analyzedDocuments = b.analyzedDocuments ∧
  a.dependencyGraph = b.dependencyGraph

theorem step_code_spec {P S D : Type} (s : AnalysisCache P S D)
    (nc nc' : AnalysisCache P S D) (p : String)
    (h : sameExceptPromA nc nc') :
    sameExceptPromA (invalidateOne s nc p) (invalidateSpecStep s nc' p) := by
  obtain ⟨e1, e2, e3, e4, e5, e6⟩ := h
  obtain ⟨f1, f2, f3, f4, f5, f6⟩ := invalidateSpecStep_fields s nc' p
  refine ⟨?_, ?_, ?_, ?_, ?_, ?_⟩ <;>
    simp only [invalidateOne_eq, f1, f2, f3, f4, f5, f6, e1, e2, e3, e4, e5, e6]

theorem fold_code_spec {P S D : Type} (s : AnalysisCache P S D)
    (ids : List String) :
    ids ≠ [] → ∀ nc nc' : AnalysisCache P S D, sameExceptPromA nc nc' →
    ids.foldl (invalidateOne s) nc =
      { ids.foldl (invalidateSpecStep s) nc' with
        analyzedDocumentPromises :=
          reseed ((ids.foldl (invalidateSpecStep s) nc').analyzedDocuments) } := by
  induction ids with
  | nil => intro h; exact absurd rfl h
  | cons p rest ih =>
    intro _ nc nc' h
    simp only [List.foldl_cons]
    by_cases hrest : rest = []
    · subst hrest
      simp only [List.foldl_nil]
      obtain ⟨e1, e2, e3, e4, e5, e6⟩ := step_code_spec s nc nc' p h
      obtain ⟨f1, f2, f3, f4, f5, f6⟩ := invalidateSpecStep_fields s nc' p
      obtain ⟨g1, g2, g3, g4, g5, g6⟩ := h
      apply cache_ext <;>
        simp only [invalidateOne_eq, reseed, f1, f2, f3, f4, f5, f6,
          g1, g2, g3, g4, g5, g6]
    · exact ih hrest (invalidateOne s nc p) (invalidateSpecStep s nc' p)
        (step_code_spec s nc nc' p h)

/-- A snapshot holding an in-flight analyzed computation that has not been
published synchronously. -/
def pendingCache : AnalysisCache Nat Nat Nat :=
  { parsedDocumentPromises := []
    scannedDocumentPromises := []
    dependenciesScannedPromises := []
    analyzedDocumentPromises := [("a", Entry.pending 0)]
    scannedDocuments := []
    analyzedDocuments := []
    dependencyGraph := ⟨[]⟩ }

/-- Counterexample to C2 as stated: on the empty id list the code leaves
the analyzed work cache untouched (the loop body never runs), while the
algorithm that performs step 4 exactly once would still clear it and drop
the in-flight entry. -/
theorem c2_counterexample_empty_list :
    invalidate pendingCache [] ≠ invalidateSpec pendingCache [] := by
  decide

/-- C2 (amended to non-empty id lists): for every snapshot and every
non-empty list of ids, invalidate returns exactly the snapshot produced by
the five-step algorithm whose step 4 - clear the analyzed work cache, then
re-seed it from the published analyzed mapping - runs exactly once, after
all ids are processed, outside the per-id loop. -/
theorem c2_step4_once_equivalent {P S D : Type} (s : AnalysisCache P S D)
    (ids : List String) (hne : ids ≠ []) :
    invalidate s ids = invalidateSpec s ids := by
  simp only [invalidate, invalidateSpec]
  exact fold_code_spec s ids hne
    (fork (some s) (some (invalidatePaths s.dependencyGraph ids)))
    (fork (some s) (some (invalidatePaths s.dependencyGraph ids)))
    ⟨rfl, rfl, rfl, rfl, rfl, rfl⟩

/-- Witness for the amended C2 on the sample snapshot. -/
theorem c2_step4_once_equivalent_witness :
    invalidate sampleCache ["c"] = invalidateSpec sampleCache ["c"] :=
  c2_step4_once_equivalent sampleCache ["c"] (by decide)

/-- One heap object: the mutable collection behind one field of a
snapshot.  One constructor per field type of AnalysisCache. -/
inductive Obj (P S D : Type) where
  | oParsed (l : AsyncWorkCache String P)
  | oScanned (l : AsyncWorkCache String S)
  | oDepsScanned (l : AsyncWorkCache String S)
  | oAnalyzed (l : AsyncWorkCache String D)
  | oScannedDocs (m : KVMap String S)
  | oAnalyzedDocs (m : KVMap String D)
deriving DecidableEq

/-- The mutable store: objects addressed by allocation index. -/
abbrev Heap (P S D : Type) : Type := List (Obj P S D)

/-- A snapshot as the JavaScript runtime sees it: six references into the
heap plus the dependency graph, which has value semantics (invalidatePaths
returns a fresh graph and never mutates the receiver). -/
structure CacheRef where
  parsedR : Nat
  scannedR : Nat
  depsScannedR : Nat
  analyzedR : Nat
  scannedDocsR : Nat
  analyzedDocsR : Nat
  graphV : DependencyGraph
deriving DecidableEq

/-- Every reference of the snapshot points into the heap. -/
abbrev RefsValid {P S D : Type} (h : Heap P S D) (c : CacheRef) : Prop :=
  c.parsedR < h.length ∧ c.scannedR < h.length ∧ c.depsScannedR < h.length ∧
  c.analyzedR < h.length ∧ c.scannedDocsR < h.length ∧ c.analyzedDocsR < h.length

def readParsed {P S D : Type} (h : Heap P S D) (c : CacheRef) (k : String) :
    Option (Entry P) :=
  match h[c.parsedR]? with
  | some (Obj.oParsed l) => mfind l k
  | _ => none

def readScanned {P S D : Type} (h : Heap P S D) (c : CacheRef) (k : String) :
    Option (Entry S) :=
  match h[c.scannedR]? with
  | some (Obj.oScanned l) => mfind l k
  | _ => none

def readDepsScanned {P S D : Type} (h : Heap P S D) (c : CacheRef) (k : String) :
    Option (Entry S) :=
  match h[c.depsScannedR]? with
  | some (Obj.oDepsScanned l) => mfind l k
  | _ => none

def readAnalyzed {P S D : Type} (h : Heap P S D) (c : CacheRef) (k : String) :
    Option (Entry D) :=
  match h[c.analyzedR]? with
  | some (Obj.oAnalyzed l) => mfind l k
  | _ => none

def readScannedDoc {P S D : Type} (h : Heap P S D) (c : CacheRef) (k : String) :
    Option S :=
  match h[c.scannedDocsR]? with
  | some (Obj.oScannedDocs m) => mfind m k
  | _ => none

def readAnalyzedDoc {P S D : Type} (h : Heap P S D) (c : CacheRef) (k : String) :
    Option D :=
  match h[c.analyzedDocsR]? with
  | some (Obj.oAnalyzedDocs m) => mfind m k
  | _ => none

/-- In-place update of the object a reference points to. -/
def updObjAt {P S D : Type} (h : Heap P S D) (r : Nat)
    (f : Obj P S D → Obj P S D) : Heap P S D :=
  match h[r]? with
  | some o => h.set r (f o)
  | none => h

/-- Delete a key inside whichever collection the object holds. -/
def delKeyObj {P S D : Type} (o : Obj P S D) (k : String) : Obj P S D :=
  match o with
  | Obj.oParsed l => Obj.oParsed (mdelete l k)
  | Obj.oScanned l => Obj.oScanned (mdelete l k)
  | Obj.oDepsScanned l => Obj.oDepsScanned (mdelete l k)
  | Obj.oAnalyzed l => Obj.oAnalyzed (mdelete l k)
  | Obj.oScannedDocs m => Obj.oScannedDocs (mdelete m k)
  | Obj.oAnalyzedDocs m => Obj.oAnalyzedDocs (mdelete m k)

/-- Install a resolved analyzed entry (used by the re-seeding loop). -/
def setAnalyzedEntry {P S D : Type} (o : Obj P S D) (k : String) (v : D) :
    Obj P S D :=
  match o with
  | Obj.oAnalyzed l => Obj.oAnalyzed (awcSet l k v)
  | o => o

/-- The constructor under reference semantics (analysis-cache.ts lines 47
to 60): allocate six fresh objects holding copies of the source snapshot
collections; allocation order follows the source. -/
def forkImp {P S D : Type} (h : Heap P S D) (src : CacheRef)
    (g : DependencyGraph) : Heap P S D × CacheRef :=
  let pl := match h[src.parsedR]? with | some (Obj.oParsed l) => l | _ => []
  let sl := match h[src.scannedR]? with | some (Obj.oScanned l) => l | _ => []
  let al := match h[src.analyzedR]? with | some (Obj.oAnalyzed l) => l | _ => []
  let dl := match h[src.depsScannedR]? with | some (Obj.oDepsScanned l) => l | _ => []
  let sd := match h[src.scannedDocsR]? with | some (Obj.oScannedDocs m) => m | _ => []
  let ad := match h[src.analyzedDocsR]? with | some (Obj.oAnalyzedDocs m) => m | _ => []
  (h ++ [Obj.oParsed pl, Obj.oScanned sl, Obj.oAnalyzed al, Obj.oDepsScanned dl,
         Obj.oScannedDocs sd, Obj.oAnalyzedDocs ad],
   { parsedR := h.length, scannedR := h.length + 1, analyzedR := h.length + 2,
     depsScannedR := h.length + 3, scannedDocsR := h.length + 4,
     analyzedDocsR := h.length + 5, graphV := g })

/-- One loop iteration of invalidate under reference semantics: every
mutation targets the freshly forked snapshot references nr; reads of the
graph go through the receiver snapshot s. -/
def invalidateOneImp {P S D : Type} (s nr : CacheRef) (hh : Heap P S D)
    (path : String) : Heap P S D :=
  let dependants := getAllDependantsOf s.graphV path
  let hh := updObjAt hh nr.parsedR (fun o => delKeyObj o path)
  let hh := updObjAt hh nr.scannedR (fun o => delKeyObj o path)
  let hh := updObjAt hh nr.depsScannedR (fun o => delKeyObj o path)
  let hh := updObjAt hh nr.scannedDocsR (fun o => delKeyObj o path)
  let hh := updObjAt hh nr.analyzedDocsR (fun o => delKeyObj o path)
  let hh := dependants.foldl (fun hh d =>
    updObjAt (updObjAt hh nr.depsScannedR (fun o => delKeyObj o d))
      nr.analyzedDocsR (fun o => delKeyObj o d)) hh
  let hh := updObjAt hh nr.analyzedR (fun _ => Obj.oAnalyzed [])
  let ad := match hh[nr.analyzedDocsR]? with
    | some (Obj.oAnalyzedDocs m) => m
    | _ => []
  ad.foldl (fun hh kv =>
    updObjAt hh nr.analyzedR (fun o => setAnalyzedEntry o kv.1 kv.2)) hh

/-- invalidate under reference semantics (analysis-cache.ts lines 68 to
101): fork, then scrub the forked snapshot in place, path by path. -/
def invalidateImp {P S D : Type} (h : Heap P S D) (s : CacheRef)
    (documentPaths : List String) : Heap P S D × CacheRef :=
  let fk := forkImp h s (invalidatePaths s.graphV documentPaths)
  (documentPaths.foldl (invalidateOneImp s fk.2) fk.1, fk.2)

theorem getElem?_updObjAt {P S D : Type} (h : Heap P S D) (r : Nat)
    (f : Obj P S D → Obj P S D) (r2 : Nat) (hne : r2 ≠ r) :
    (updObjAt h r f)[r2]? = h[r2]? := by
  unfold updObjAt
  rcases h[r]? with _ | o
  · rfl
  · exact List.getElem?_set_ne (fun hh => hne hh.symm)

theorem foldl_upd_preserves {P S D A : Type} (r : Nat)
    (f : Heap P S D → A → Heap P S D)
    (hf : ∀ (hh : Heap P S D) (a : A), (f hh a)[r]? = hh[r]?) :
    ∀ (l : List A) (hh : Heap P S D), (l.foldl f hh)[r]? = hh[r]? := by
  intro l
  induction l with
  | nil => intro hh; rfl
  | cons a rest ih =>
    intro hh
    simp only [List.foldl_cons]
    rw [ih, hf]

theorem invalidateOneImp_preserves {P S D : Type} (s nr : CacheRef)
    (hh : Heap P S D) (path : String) (r : Nat)
    (h1 : r ≠ nr.parsedR) (h2 : r ≠ nr.scannedR) (h3 : r ≠ nr.depsScannedR)
    (h4 : r ≠ nr.analyzedR) (h5 : r ≠ nr.scannedDocsR)
    (h6 : r ≠ nr.analyzedDocsR) :
    (invalidateOneImp s nr hh path)[r]? = hh[r]? := by
  have hres : ∀ (ad : List (String × D)) (hh2 : Heap P S D),
      (ad.foldl (fun hh3 kv =>
        updObjAt hh3 nr.analyzedR (fun o => setAnalyzedEntry o kv.1 kv.2)) hh2)[r]? =
      hh2[r]? :=
    foldl_upd_preserves r _
      (fun hh3 kv => getElem?_updObjAt hh3 nr.analyzedR _ r h4)
  have hscrub : ∀ (ds : List String) (hh2 : Heap P S D),
      (ds.foldl (fun hh3 d =>
        updObjAt (updObjAt hh3 nr.depsScannedR (fun o => delKeyObj o d))
          nr.analyzedDocsR (fun o => delKeyObj o d)) hh2)[r]? = hh2[r]? :=
    foldl_upd_preserves r _
      (fun hh3 d => by
        rw [getElem?_updObjAt _ _ _ r h6, getElem?_updObjAt _ _ _ r h3])
  simp only [invalidateOneImp]
  rw [hres, getElem?_updObjAt _ _ _ r h4, hscrub,
    getElem?_updObjAt _ _ _ r h6, getElem?_updObjAt _ _ _ r h5,
    getElem?_updObjAt _ _ _ r h3, getElem?_updObjAt _ _ _ r h2,
    getElem?_updObjAt _ _ _ r h1]

theorem invalidateImp_preserves {P S D : Type} (h : Heap P S D) (s : CacheRef)
    (ids : List String) (r : Nat) (hr : r < h.length) :
    (invalidateImp h s ids).1[r]? = h[r]? := by
  have hne1 : r ≠ h.length := by omega
  have hne2 : r ≠ h.length + 1 := by omega
  have hne3 : r ≠ h.length + 2 := by omega
  have hne4 : r ≠ h.length + 3 := by omega
  have hne5 : r ≠ h.length + 4 := by omega
  have hne6 : r ≠ h.length + 5 := by omega
  simp only [invalidateImp, forkImp]
  rw [foldl_upd_preserves r _
    (fun hh path => invalidateOneImp_preserves s _ hh path r
      hne1 hne2 hne4 hne3 hne5 hne6)]
  exact List.getElem?_append_left hr

/-- C5: invalidate never mutates its receiver.  Under reference semantics
every mutation performed while building the new snapshot targets the six
freshly allocated objects, so after the call every query through the old
snapshot reference reads exactly what it read before; the receiver graph
is held by value and cannot change. -/
theorem c5_invalidate_preserves_receiver {P S D : Type} (h : Heap P S D)
    (s : CacheRef) (ids : List String) (hval : RefsValid h s) (k : String) :
    readParsed (invalidateImp h s ids).1 s k = readParsed h s k ∧
    readScanned (invalidateImp h s ids).1 s k = readScanned h s k ∧
    readDepsScanned (invalidateImp h s ids).1 s k = readDepsScanned h s k ∧
    readAnalyzed (invalidateImp h s ids).1 s k = readAnalyzed h s k ∧
    readScannedDoc (invalidateImp h s ids).1 s k = readScannedDoc h s k ∧
    readAnalyzedDoc (invalidateImp h s ids).1 s k = readAnalyzedDoc h s k := by
  obtain ⟨v1, v2, v3, v4, v5, v6⟩ := hval
  have e1 := invalidateImp_preserves h s ids s.parsedR v1
  have e2 := invalidateImp_preserves h s ids s.scannedR v2
  have e3 := invalidateImp_preserves h s ids s.depsScannedR v3
  have e4 := invalidateImp_preserves h s ids s.analyzedR v4
  have e5 := invalidateImp_preserves h s ids s.scannedDocsR v5
  have e6 := invalidateImp_preserves h s ids s.analyzedDocsR v6
  refine ⟨?_, ?_, ?_, ?_, ?_, ?_⟩ <;>
    simp only [readParsed, readScanned, readDepsScanned, readAnalyzed,
      readScannedDoc, readAnalyzedDoc, e1, e2, e3, e4, e5, e6]

/-- A concrete heap and snapshot for the C5 witness. -/
def sampleHeap : Heap Nat Nat Nat :=
  [Obj.oParsed [("a", Entry.resolved 1)],
   Obj.oScanned [("a", Entry.resolved 2)],
   Obj.oDepsScanned [("a", Entry.resolved 2)],
   Obj.oAnalyzed [("a", Entry.pending 0)],
   Obj.oScannedDocs [("a", 2)],
   Obj.oAnalyzedDocs [("a", 3)]]

def sampleRef : CacheRef :=
  { parsedR := 0, scannedR := 1, depsScannedR := 2, analyzedR := 3,
    scannedDocsR := 4, analyzedDocsR := 5,
    graphV := ⟨[("b", "a")]⟩ }

/-- Witness for C5: invalidating a leaves every read through the old
snapshot reference unchanged. -/
theorem c5_invalidate_preserves_receiver_witness :
    readParsed (invalidateImp sampleHeap sampleRef ["a"]).1 sampleRef "a" =
      readParsed sampleHeap sampleRef "a" ∧
    readScanned (invalidateImp sampleHeap sampleRef ["a"]).1 sampleRef "a" =
      readScanned sampleHeap sampleRef "a" ∧
    readDepsScanned (invalidateImp sampleHeap sampleRef ["a"]).1 sampleRef "a" =
      readDepsScanned sampleHeap sampleRef "a" ∧
    readAnalyzed (invalidateImp sampleHeap sampleRef ["a"]).1 sampleRef "a" =
      readAnalyzed sampleHeap sampleRef "a" ∧
    readScannedDoc (invalidateImp sampleHeap sampleRef ["a"]).1 sampleRef "a" =
      readScannedDoc sampleHeap sampleRef "a" ∧
    readAnalyzedDoc (invalidateImp sampleHeap sampleRef ["a"]).1 sampleRef "a" =
      readAnalyzedDoc sampleHeap sampleRef "a" :=
  c5_invalidate_preserves_receiver sampleHeap sampleRef ["a"] (by decide) "a"
